import Mathlib

/-!
Verification of the MP4 atom engine of the m4a-stems library
(src/atoms.js and src/extractor.js).

Byte buffers are modelled as lists of natural numbers, one per byte.
Big-endian multi-byte reads and writes mirror the Node `Buffer` calls
(`readUInt32BE`, `writeUInt32BE`, `readBigUInt64BE`, ...).  Out-of-range
reads, which throw in Node, are modelled by reading the byte 0; every
theorem keeps its reads in range through explicit bounds, so the model and
the JavaScript agree on all inputs the theorems speak about.  Atom type
strings are compared as raw byte sequences: the source compares the
latin1 (or utf8) decoding of four bytes with an ASCII literal, which
holds exactly when the bytes are that ASCII sequence.
-/

abbrev Buf := List Nat

/-- Byte at index `i` of a buffer, `0` when out of range. -/
def byteAt (buf : Buf) (i : Nat) : Nat := buf.getD i 0

/-- Big-endian read of `w` bytes starting at `pos` (w = 4 models
`readUInt32BE`, w = 8 models `readBigUInt64BE`). -/
def readBE (buf : Buf) (pos : Nat) : Nat → Nat
  | 0 => 0
  | n + 1 => readBE buf pos n * 256 + byteAt buf (pos + n)

/-- `readUInt32BE`. -/
def readU32 (buf : Buf) (pos : Nat) : Nat := readBE buf pos 4

/-- Big-endian write of the low `w` bytes of `v` starting at `pos`
(the callers below always supply `v < 256 ^ w`, as Node throws on a
value out of range). -/
def writeBE (buf : Buf) (pos : Nat) : Nat → Nat → Buf
  | 0, _ => buf
  | n + 1, v => writeBE (buf.set (pos + n) (v % 256)) pos n (v / 256)

/-- `writeUInt32BE`. -/
def writeU32 (buf : Buf) (pos : Nat) (v : Nat) : Buf := writeBE buf pos 4 v

/-- Big-endian byte list of length `n` for value `v` (used when the source
allocates a fresh buffer and fills it). -/
def beBytes : Nat → Nat → List Nat
  | 0, _ => []
  | n + 1, v => beBytes n (v / 256) ++ [v % 256]

/-- Four big-endian bytes of `v`. -/
def u32be (v : Nat) : Buf := beBytes 4 v

/-- The four byte values of a four-character atom type written with
latin1 encoding (each code point below 256 becomes one byte). -/
def fourcc (s : String) : List Nat := s.toList.map Char.toNat

/-- The four type bytes of the atom whose header starts at `pos`
(`buffer.toString(..., pos + 4, pos + 8)`). -/
def typeAt (buf : Buf) (pos : Nat) : List Nat :=
  [byteAt buf (pos + 4), byteAt buf (pos + 5), byteAt buf (pos + 6), byteAt buf (pos + 7)]

/-- `buffer.slice(a, b)` as a byte list (clamped like the Node call). -/
def bufSlice (buf : Buf) (a b : Nat) : Buf := (buf.drop a).take (b - a)

/-- `const endOffset = maxLength ? offset + maxLength : buffer.length;`
A `maxLength` of 0 is falsy in JavaScript, hence also selects
`buffer.length`. -/
def endOffsetOf (bufLen offset : Nat) (maxLength : Option Nat) : Nat :=
  match maxLength with
  | none => bufLen
  | some 0 => bufLen
  | some m => offset + m

/-- Parsed atom record `{ type, offset, size, dataOffset }`. -/
structure MP4Atom where
  type : List Nat
  offset : Nat
  size : Nat
  dataOffset : Nat
deriving Repr, DecidableEq

namespace Atoms

/-- Loop body of `parseMP4Atoms` (src/atoms.js), fuelled: the loop runs
while `pos < endOffset - 8`, pushes the atom and advances by its size,
stopping on `size === 0 || size > buffer.length - pos`. -/
def parseGo (buf : Buf) (endOffset : Nat) : Nat → Nat → List MP4Atom
  | 0, _ => []
  | fuel + 1, pos =>
    if pos < endOffset - 8 then
      let size := readU32 buf pos
      if size = 0 ∨ size > buf.length - pos then []
      else ⟨typeAt buf pos, pos, size, pos + 8⟩ :: parseGo buf endOffset fuel (pos + size)
    else []

/-- `parseMP4Atoms(buffer, offset, maxLength)` of src/atoms.js.  The fuel
`endOffset + 1` dominates the iteration count: each step advances `pos`
by at least one. -/
def parseMP4Atoms (buf : Buf) (offset : Nat) (maxLength : Option Nat) : List MP4Atom :=
  let endOffset := endOffsetOf buf.length offset maxLength
  parseGo buf endOffset (endOffset + 1) offset

/-- `createAtom(type, data)` of src/atoms.js: 4-byte size, 4-byte type,
payload. -/
def createAtom (type : String) (data : Buf) : Buf :=
  u32be (8 + data.length) ++ fourcc type ++ data

end Atoms

namespace Extractor

/-- Loop body of `parseAtoms` (src/extractor.js): as `parseMP4Atoms` but
also stopping on `size < 8`. -/
def parseGo (buf : Buf) (endOffset : Nat) : Nat → Nat → List MP4Atom
  | 0, _ => []
  | fuel + 1, pos =>
    if pos < endOffset - 8 then
      let size := readU32 buf pos
      if size = 0 ∨ size < 8 ∨ size > buf.length - pos then []
      else ⟨typeAt buf pos, pos, size, pos + 8⟩ :: parseGo buf endOffset fuel (pos + size)
    else []

/-- `parseAtoms(buffer, offset, maxLength)` of src/extractor.js. -/
def parseAtoms (buf : Buf) (offset : Nat) (maxLength : Option Nat) : List MP4Atom :=
  let endOffset := endOffsetOf buf.length offset maxLength
  parseGo buf endOffset (endOffset + 1) offset

/-- `findAtom(atoms, type)`. -/
def findAtom (atoms : List MP4Atom) (type : String) : Option MP4Atom :=
  atoms.find? (fun a => a.type = fourcc type)

/-- `createAtom(type, data)` of src/extractor.js (same layout as the one
in src/atoms.js). -/
def createAtom (type : String) (data : Buf) : Buf :=
  u32be (8 + data.length) ++ fourcc type ++ data

end Extractor

section ParserBounds

/-- Every atom yielded by the atoms.js loop starts at or after the scan
position and strictly before `endOffset - 8`. -/
theorem Atoms.parseGo_offset_lt (buf : Buf) (endOffset : Nat) :
    ∀ fuel pos a, a ∈ Atoms.parseGo buf endOffset fuel pos →
      pos ≤ a.offset ∧ a.offset < endOffset - 8 := by
  intro fuel
  induction fuel with
  | zero => intro pos a h; simp [Atoms.parseGo] at h
  | succ n ih =>
    intro pos a h
    simp only [Atoms.parseGo] at h
    by_cases hc : pos < endOffset - 8
    · simp only [hc, if_true] at h
      by_cases hs : readU32 buf pos = 0 ∨ readU32 buf pos > buf.length - pos
      · simp [hs] at h
      · simp only [hs, if_false, List.mem_cons] at h
        rcases h with h | h
        · subst h; exact ⟨Nat.le_refl _, hc⟩
        · have := ih (pos + readU32 buf pos) a h
          exact ⟨Nat.le_trans (Nat.le_add_right _ _) this.1, this.2⟩
    · simp [hc] at h

/-- Every atom yielded by the extractor.js loop starts at or after the
scan position and strictly before `endOffset - 8`. -/
theorem Extractor.parseGo_offset_lt_ex (buf : Buf) (endOffset : Nat) :
    ∀ fuel pos a, a ∈ Extractor.parseGo buf endOffset fuel pos →
      pos ≤ a.offset ∧ a.offset < endOffset - 8 := by
  intro fuel
  induction fuel with
  | zero => intro pos a h; simp [Extractor.parseGo] at h
  | succ n ih =>
    intro pos a h
    simp only [Extractor.parseGo] at h
    by_cases hc : pos < endOffset - 8
    · simp only [hc, if_true] at h
      by_cases hs : readU32 buf pos = 0 ∨ readU32 buf pos < 8 ∨ readU32 buf pos > buf.length - pos
      · simp [hs] at h
      · simp only [hs, if_false, List.mem_cons] at h
        rcases h with h | h
        · subst h; exact ⟨Nat.le_refl _, hc⟩
        · have := ih (pos + readU32 buf pos) a h
          exact ⟨Nat.le_trans (Nat.le_add_right _ _) this.1, this.2⟩
    · simp [hc] at h

end ParserBounds

/-- C10: both flat atom parsers only yield atoms whose 8-byte header
begins strictly more than 8 bytes before the window end: an atom whose
header starts at `endOffset - 8` (for instance a trailing 8-byte padding
atom occupying exactly the last 8 bytes of the window) is never
returned. -/
theorem claim10_parsers_drop_final_headers (buf : Buf) (offset : Nat)
    (maxLength : Option Nat) (a : MP4Atom) :
    (a ∈ Atoms.parseMP4Atoms buf offset maxLength →
      a.offset < endOffsetOf buf.length offset maxLength - 8) ∧
    (a ∈ Extractor.parseAtoms buf offset maxLength →
      a.offset < endOffsetOf buf.length offset maxLength - 8) := by
  constructor
  · intro h
    exact (Atoms.parseGo_offset_lt buf _ _ offset a h).2
  · intro h
    exact (Extractor.parseGo_offset_lt_ex buf _ _ offset a h).2

section ByteLemmas

theorem byteAt_append_left {l1 l2 : Buf} {i : Nat} (h : i < l1.length) :
    byteAt (l1 ++ l2) i = byteAt l1 i := by
  simp [byteAt, List.getD, List.getElem?_append_left h]

theorem byteAt_append_right {l1 l2 : Buf} {i : Nat} (h : l1.length ≤ i) :
    byteAt (l1 ++ l2) i = byteAt l2 (i - l1.length) := by
  simp [byteAt, List.getD, List.getElem?_append_right h]

theorem readBE_append_left {l1 l2 : Buf} {pos : Nat} :
    ∀ {n : Nat}, pos + n ≤ l1.length → readBE (l1 ++ l2) pos n = readBE l1 pos n := by
  intro n
  induction n with
  | zero => intro _; rfl
  | succ m ih =>
    intro h
    have hm : pos + m ≤ l1.length := by omega
    have hb : pos + m < l1.length := by omega
    simp [readBE, ih hm, byteAt_append_left hb]

theorem readBE_append_right {l1 l2 : Buf} {pos : Nat} (hpos : l1.length ≤ pos) :
    ∀ {n : Nat}, readBE (l1 ++ l2) pos n = readBE l2 (pos - l1.length) n := by
  intro n
  induction n with
  | zero => rfl
  | succ m ih =>
    have hb : l1.length ≤ pos + m := by omega
    have harith : pos + m - l1.length = pos - l1.length + m := by omega
    simp [readBE, ih, byteAt_append_right hb, harith]

theorem length_beBytes (n v : Nat) : (beBytes n v).length = n := by
  induction n generalizing v with
  | zero => rfl
  | succ m ih => simp [beBytes, ih]

/-- Reading back `n` big-endian bytes written for `v` gives `v mod 256 ^ n`. -/
theorem readBE_pre_beBytes (pre suf : Buf) (n v : Nat) :
    readBE (pre ++ beBytes n v ++ suf) pre.length n = v % 256 ^ n := by
  induction n generalizing v suf with
  | zero => simp [readBE, Nat.mod_one]
  | succ m ih =>
    have hassoc :
        pre ++ beBytes (m + 1) v ++ suf
          = pre ++ beBytes m (v / 256) ++ ([v % 256] ++ suf) := by
      simp [beBytes]
    rw [hassoc]
    have hlen : (pre ++ beBytes m (v / 256)).length = pre.length + m := by
      simp [length_beBytes]
    have hmid : pre ++ beBytes m (v / 256) ++ ([v % 256] ++ suf)
        = (pre ++ beBytes m (v / 256)) ++ ([v % 256] ++ suf) := by simp
    have hbyte : byteAt (pre ++ beBytes m (v / 256) ++ ([v % 256] ++ suf)) (pre.length + m)
        = v % 256 := by
      rw [hmid, byteAt_append_right (by omega)]
      simp [hlen, byteAt]
    have hrec : readBE (pre ++ beBytes m (v / 256) ++ ([v % 256] ++ suf)) pre.length m
        = v / 256 % 256 ^ m := by apply ih
    have hpow : (256 : Nat) ^ (m + 1) = 256 * 256 ^ m := by ring
    simp only [readBE]
    rw [hrec, hbyte, hpow, Nat.mod_mul]
    ring

theorem readBE_beBytes_head (n v : Nat) (suf : Buf) :
    readBE (beBytes n v ++ suf) 0 n = v % 256 ^ n := by
  have := readBE_pre_beBytes [] suf n v
  simpa using this

end ByteLemmas

section TiledParse

/-- Atom records for a region tiled by whole atom byte blocks starting
at `pos`. -/
def tiledAtoms (pos : Nat) : List Buf → List MP4Atom
  | [] => []
  | b :: bs => ⟨typeAt b 0, pos, b.length, pos + 8⟩ :: tiledAtoms (pos + b.length) bs

theorem flatten_length_ge {blocks : List Buf} (h : ∀ b ∈ blocks, 8 < b.length) :
    blocks.length ≤ blocks.flatten.length := by
  induction blocks with
  | nil => simp
  | cons b bs ih =>
    have hb := h b (by simp)
    have := ih (fun x hx => h x (by simp [hx]))
    simp only [List.flatten_cons, List.length_append, List.length_cons]
    omega

theorem Atoms.parseGo_tiled :
    ∀ (blocks : List Buf) (pre suf : Buf) (fuel : Nat),
      blocks.length < fuel →
      (∀ b ∈ blocks, 8 < b.length ∧ readU32 b 0 = b.length) →
      Atoms.parseGo (pre ++ blocks.flatten ++ suf) (pre.length + blocks.flatten.length)
          fuel pre.length
        = tiledAtoms pre.length blocks := by
  intro blocks
  induction blocks with
  | nil =>
    intro pre suf fuel _ _
    cases fuel with
    | zero => rfl
    | succ m => simp [Atoms.parseGo, tiledAtoms]
  | cons b bs ih =>
    intro pre suf fuel hfuel hb
    obtain ⟨m, rfl⟩ : ∃ m, fuel = m + 1 := ⟨fuel - 1, by omega⟩
    have hblen : 8 < b.length := (hb b (by simp)).1
    have hbsz : readU32 b 0 = b.length := (hb b (by simp)).2
    have hflat : (b :: bs).flatten = b ++ bs.flatten := by simp
    have hassoc : pre ++ (b :: bs).flatten ++ suf = pre ++ (b ++ (bs.flatten ++ suf)) := by
      simp
    have hlen : (pre ++ (b :: bs).flatten ++ suf).length
        = pre.length + b.length + bs.flatten.length + suf.length := by
      simp [hflat]; omega
    have hsize : readU32 (pre ++ (b :: bs).flatten ++ suf) pre.length = b.length := by
      rw [hassoc, readU32, readBE_append_right (Nat.le_refl _)]
      simp only [Nat.sub_self]
      rw [readBE_append_left (by omega)]
      exact hbsz
    have htype : typeAt (pre ++ (b :: bs).flatten ++ suf) pre.length = typeAt b 0 := by
      have hk : ∀ k, k < b.length →
          byteAt (pre ++ (b :: bs).flatten ++ suf) (pre.length + k) = byteAt b k := by
        intro k hk
        rw [hassoc, byteAt_append_right (by omega)]
        have : pre.length + k - pre.length = k := by omega
        rw [this, byteAt_append_left hk]
      simp only [typeAt]
      rw [hk 4 (by omega), hk 5 (by omega), hk 6 (by omega), hk 7 (by omega)]
    simp only [Atoms.parseGo]
    have hcond : pre.length < pre.length + (b :: bs).flatten.length - 8 := by
      simp [hflat]; omega
    rw [if_pos hcond]
    simp only [hsize]
    have hnotstop : ¬(b.length = 0 ∨
        b.length > (pre ++ (b :: bs).flatten ++ suf).length - pre.length) := by
      rw [hlen]; omega
    rw [if_neg hnotstop]
    have hrest : pre ++ (b :: bs).flatten ++ suf = (pre ++ b) ++ bs.flatten ++ suf := by
      simp [hflat]
    have hend : pre.length + (b :: bs).flatten.length
        = (pre ++ b).length + bs.flatten.length := by
      simp [hflat]; omega
    have hpos2 : pre.length + b.length = (pre ++ b).length := by simp
    have ihres := ih (pre ++ b) suf m (by simp at hfuel ⊢; omega)
      (fun x hx => hb x (by simp [hx]))
    rw [htype]
    simp only [tiledAtoms]
    congr 1
    rw [hrest, hend, hpos2]
    exact ihres

theorem Extractor.parseGo_tiled_ex :
    ∀ (blocks : List Buf) (pre suf : Buf) (fuel : Nat),
      blocks.length < fuel →
      (∀ b ∈ blocks, 8 < b.length ∧ readU32 b 0 = b.length) →
      Extractor.parseGo (pre ++ blocks.flatten ++ suf) (pre.length + blocks.flatten.length)
          fuel pre.length
        = tiledAtoms pre.length blocks := by
  intro blocks
  induction blocks with
  | nil =>
    intro pre suf fuel _ _
    cases fuel with
    | zero => rfl
    | succ m => simp [Extractor.parseGo, tiledAtoms]
  | cons b bs ih =>
    intro pre suf fuel hfuel hb
    obtain ⟨m, rfl⟩ : ∃ m, fuel = m + 1 := ⟨fuel - 1, by omega⟩
    have hblen : 8 < b.length := (hb b (by simp)).1
    have hbsz : readU32 b 0 = b.length := (hb b (by simp)).2
    have hflat : (b :: bs).flatten = b ++ bs.flatten := by simp
    have hassoc : pre ++ (b :: bs).flatten ++ suf = pre ++ (b ++ (bs.flatten ++ suf)) := by
      simp
    have hlen : (pre ++ (b :: bs).flatten ++ suf).length
        = pre.length + b.length + bs.flatten.length + suf.length := by
      simp [hflat]; omega
    have hsize : readU32 (pre ++ (b :: bs).flatten ++ suf) pre.length = b.length := by
      rw [hassoc, readU32, readBE_append_right (Nat.le_refl _)]
      simp only [Nat.sub_self]
      rw [readBE_append_left (by omega)]
      exact hbsz
    have htype : typeAt (pre ++ (b :: bs).flatten ++ suf) pre.length = typeAt b 0 := by
      have hk : ∀ k, k < b.length →
          byteAt (pre ++ (b :: bs).flatten ++ suf) (pre.length + k) = byteAt b k := by
        intro k hk
        rw [hassoc, byteAt_append_right (by omega)]
        have : pre.length + k - pre.length = k := by omega
        rw [this, byteAt_append_left hk]
      simp only [typeAt]
      rw [hk 4 (by omega), hk 5 (by omega), hk 6 (by omega), hk 7 (by omega)]
    simp only [Extractor.parseGo]
    have hcond : pre.length < pre.length + (b :: bs).flatten.length - 8 := by
      simp [hflat]; omega
    rw [if_pos hcond]
    simp only [hsize]
    have hnotstop : ¬(b.length = 0 ∨ b.length < 8 ∨
        b.length > (pre ++ (b :: bs).flatten ++ suf).length - pre.length) := by
      rw [hlen]; omega
    rw [if_neg hnotstop]
    have hrest : pre ++ (b :: bs).flatten ++ suf = (pre ++ b) ++ bs.flatten ++ suf := by
      simp [hflat]
    have hend : pre.length + (b :: bs).flatten.length
        = (pre ++ b).length + bs.flatten.length := by
      simp [hflat]; omega
    have hpos2 : pre.length + b.length = (pre ++ b).length := by simp
    have ihres := ih (pre ++ b) suf m (by simp at hfuel ⊢; omega)
      (fun x hx => hb x (by simp [hx]))
    rw [htype]
    simp only [tiledAtoms]
    congr 1
    rw [hrest, hend, hpos2]
    exact ihres

end TiledParse

/-- Witness for C10: a 16-byte window holding two well-formed 8-byte
`free` atoms; the parser returns only the first, and the theorem applies
to it. -/
theorem claim10_witness :
    (⟨fourcc "free", 0, 8, 8⟩ : MP4Atom) ∈
        Atoms.parseMP4Atoms
          [0, 0, 0, 8, 102, 114, 101, 101, 0, 0, 0, 8, 102, 114, 101, 101] 0 none ∧
      (⟨fourcc "free", 0, 8, 8⟩ : MP4Atom).offset < 16 - 8 ∧
      Atoms.parseMP4Atoms
          [0, 0, 0, 8, 102, 114, 101, 101, 0, 0, 0, 8, 102, 114, 101, 101] 0 none =
        [⟨fourcc "free", 0, 8, 8⟩] := by
  refine ⟨by decide, ?_, by decide⟩
  exact (claim10_parsers_drop_final_headers
    [0, 0, 0, 8, 102, 114, 101, 101, 0, 0, 0, 8, 102, 114, 101, 101] 0 none
    ⟨fourcc "free", 0, 8, 8⟩).1 (by decide)

section GetDHelpers

theorem getD_mem {α : Type} (l : List α) (j : Nat) (h : j < l.length) (d : α) :
    l.getD j d ∈ l := by
  simp [List.getD, List.getElem?_eq_getElem h]

end GetDHelpers

namespace Atoms

/-- `createBpmAtom(bpm)` nested in `addStandardMetadata` (src/atoms.js):
`null` for a falsy bpm, else a `tmpo` atom wrapping a `data` sub-atom
whose 8-byte prefix carries type code 21 and locale 0 and whose payload
is the 2-byte big-endian bpm (`writeUInt16BE`).  The model takes a
natural number, `parseInt` of an in-range numeric input being itself. -/
def createBpmAtom (bpm : Nat) : Option Buf :=
  if bpm = 0 then none
  else
    let dataPayload := beBytes 2 bpm
    let dataAtom := createAtom "data" (u32be 21 ++ u32be 0 ++ dataPayload)
    some (createAtom "tmpo" dataAtom)

end Atoms


section TiledWrappers

/-- Wrapper form of the tiled-parse lemma for `parseMP4Atoms`. -/
theorem Atoms.parseMP4Atoms_tiled (pre suf : Buf) (blocks : List Buf)
    (hb : ∀ b ∈ blocks, 8 < b.length ∧ readU32 b 0 = b.length)
    (hnz : blocks ≠ []) :
    Atoms.parseMP4Atoms (pre ++ blocks.flatten ++ suf) pre.length
        (some blocks.flatten.length)
      = tiledAtoms pre.length blocks := by
  have hge : blocks.length ≤ blocks.flatten.length :=
    flatten_length_ge (fun b hb2 => (hb b hb2).1)
  have hpos : blocks.flatten.length ≠ 0 := by
    cases blocks with
    | nil => simp at hnz
    | cons b bs =>
      have := (hb b (by simp)).1
      simp only [List.flatten_cons, List.length_append]
      omega
  have hend : ∀ L, L ≠ 0 →
      endOffsetOf (pre ++ blocks.flatten ++ suf).length pre.length (some L)
        = pre.length + L := by
    intro L hL
    cases L with
    | zero => contradiction
    | succ m => rfl
  simp only [Atoms.parseMP4Atoms]
  rw [hend _ hpos]
  exact Atoms.parseGo_tiled blocks pre suf _ (by omega) hb

/-- Wrapper form of the tiled-parse lemma for the extractor `parseAtoms`. -/
theorem Extractor.parseAtoms_tiled (pre suf : Buf) (blocks : List Buf)
    (hb : ∀ b ∈ blocks, 8 < b.length ∧ readU32 b 0 = b.length)
    (hnz : blocks ≠ []) :
    Extractor.parseAtoms (pre ++ blocks.flatten ++ suf) pre.length
        (some blocks.flatten.length)
      = tiledAtoms pre.length blocks := by
  have hge : blocks.length ≤ blocks.flatten.length :=
    flatten_length_ge (fun b hb2 => (hb b hb2).1)
  have hpos : blocks.flatten.length ≠ 0 := by
    cases blocks with
    | nil => simp at hnz
    | cons b bs =>
      have := (hb b (by simp)).1
      simp only [List.flatten_cons, List.length_append]
      omega
  have hend : ∀ L, L ≠ 0 →
      endOffsetOf (pre ++ blocks.flatten ++ suf).length pre.length (some L)
        = pre.length + L := by
    intro L hL
    cases L with
    | zero => contradiction
    | succ m => rfl
  simp only [Extractor.parseAtoms]
  rw [hend _ hpos]
  exact Extractor.parseGo_tiled_ex blocks pre suf _ (by omega) hb

end TiledWrappers

section AtomToolkit

theorem length_u32be (v : Nat) : (u32be v).length = 4 := by
  simp [u32be, length_beBytes]

theorem Atoms.createAtom_eq (t : String) (d : Buf) :
    Atoms.createAtom t d = u32be (8 + d.length) ++ fourcc t ++ d := rfl

theorem Atoms.length_createAtom (t : String) (d : Buf) (h : (fourcc t).length = 4) :
    (Atoms.createAtom t d).length = 8 + d.length := by
  simp [Atoms.createAtom, length_u32be, h]
  omega

theorem Atoms.readU32_createAtom (t : String) (d : Buf) :
    readU32 (Atoms.createAtom t d) 0 = (8 + d.length) % 256 ^ 4 := by
  rw [Atoms.createAtom_eq, List.append_assoc]
  exact readBE_beBytes_head 4 _ _

theorem typeAt_append_left (l1 l2 : Buf) (pos : Nat) (h : pos + 8 ≤ l1.length) :
    typeAt (l1 ++ l2) pos = typeAt l1 pos := by
  simp only [typeAt]
  rw [byteAt_append_left (by omega), byteAt_append_left (by omega),
    byteAt_append_left (by omega), byteAt_append_left (by omega)]

theorem typeAt_append_mid (pre b suf : Buf) (h : 8 ≤ b.length) :
    typeAt (pre ++ b ++ suf) pre.length = typeAt b 0 := by
  have hk : ∀ k, k < b.length → byteAt (pre ++ b ++ suf) (pre.length + k) = byteAt b k := by
    intro k hk
    rw [List.append_assoc, byteAt_append_right (by omega)]
    have heq : pre.length + k - pre.length = k := by omega
    rw [heq, byteAt_append_left hk]
  simp only [typeAt]
  rw [hk 4 (by omega), hk 5 (by omega), hk 6 (by omega), hk 7 (by omega)]

theorem readU32_pre_u32be (pre suf : Buf) (v : Nat) :
    readU32 (pre ++ u32be v ++ suf) pre.length = v % 256 ^ 4 :=
  readBE_pre_beBytes pre suf 4 v

end AtomToolkit

/-- C9: for every bpm in the u16 range, `createBpmAtom` emits a `tmpo`
atom with a correct size header whose single child (as reparsed by the
library parser) is a `data` atom of type code 21 carrying the 2-byte
big-endian bpm payload; at bpm = 120 the payload is the bytes 0x00 0x78. -/
theorem claim9_createBpmAtom_encoding (bpm : Nat) (h1 : 0 < bpm) (h2 : bpm < 65536) :
    ∃ out, Atoms.createBpmAtom bpm = some out ∧
      out.length = 26 ∧
      typeAt out 0 = fourcc "tmpo" ∧
      readU32 out 0 = out.length ∧
      Atoms.parseMP4Atoms out 8 (some (out.length - 8)) = [⟨fourcc "data", 8, 18, 16⟩] ∧
      readU32 out 16 = 21 ∧
      bufSlice out 24 26 = [bpm / 256, bpm % 256] ∧
      readBE out 24 2 = bpm := by
  have hq : bpm / 256 % 256 = bpm / 256 := Nat.mod_eq_of_lt (by omega)
  have hinner : (u32be 21 ++ u32be 0 ++ beBytes 2 bpm).length = 10 := by
    simp [length_u32be, length_beBytes]
  have hdlen : (Atoms.createAtom "data" (u32be 21 ++ u32be 0 ++ beBytes 2 bpm)).length = 18 := by
    rw [Atoms.length_createAtom _ _ (by decide), hinner]
  have houtlen : (Atoms.createAtom "tmpo"
      (Atoms.createAtom "data" (u32be 21 ++ u32be 0 ++ beBytes 2 bpm))).length = 26 := by
    rw [Atoms.length_createAtom _ _ (by decide), hdlen]
  have hbe2 : beBytes 2 bpm = [bpm / 256 % 256, bpm % 256] := by
    simp [beBytes]
  have hdata_eq : Atoms.createAtom "data" (u32be 21 ++ u32be 0 ++ beBytes 2 bpm)
      = ([0, 0, 0, 18, 100, 97, 116, 97, 0, 0, 0, 21, 0, 0, 0, 0] : Buf) ++ beBytes 2 bpm := by
    rw [Atoms.createAtom_eq, hinner]
    rw [show (8 : Nat) + 10 = 18 by norm_num]
    rw [show u32be 18 = ([0, 0, 0, 18] : Buf) from by decide,
      show fourcc "data" = ([100, 97, 116, 97] : List Nat) from by decide,
      show u32be 21 = ([0, 0, 0, 21] : Buf) from by decide,
      show u32be 0 = ([0, 0, 0, 0] : Buf) from by decide]
    simp
  have hout_eq : Atoms.createAtom "tmpo"
      (Atoms.createAtom "data" (u32be 21 ++ u32be 0 ++ beBytes 2 bpm))
      = ([0, 0, 0, 26, 116, 109, 112, 111] : Buf)
          ++ Atoms.createAtom "data" (u32be 21 ++ u32be 0 ++ beBytes 2 bpm) := by
    rw [Atoms.createAtom_eq "tmpo", hdlen]
    rw [show (8 : Nat) + 18 = 26 by norm_num]
    rw [show u32be 26 = ([0, 0, 0, 26] : Buf) from by decide,
      show fourcc "tmpo" = ([116, 109, 112, 111] : List Nat) from by decide]
    simp
  have hout_lit : Atoms.createAtom "tmpo"
      (Atoms.createAtom "data" (u32be 21 ++ u32be 0 ++ beBytes 2 bpm))
      = ([0, 0, 0, 26, 116, 109, 112, 111, 0, 0, 0, 18, 100, 97, 116, 97,
          0, 0, 0, 21, 0, 0, 0, 0] : Buf) ++ beBytes 2 bpm := by
    rw [hout_eq, hdata_eq]
    simp
  refine ⟨Atoms.createAtom "tmpo"
    (Atoms.createAtom "data" (u32be 21 ++ u32be 0 ++ beBytes 2 bpm)),
    ?_, houtlen, ?_, ?_, ?_, ?_, ?_, ?_⟩
  · simp [Atoms.createBpmAtom, h1.ne']
  · rw [hout_lit, typeAt_append_left _ _ 0 (by decide)]
    decide
  · rw [Atoms.readU32_createAtom, hdlen, houtlen]
    norm_num
  · have hb : ∀ b ∈ [Atoms.createAtom "data" (u32be 21 ++ u32be 0 ++ beBytes 2 bpm)],
        8 < b.length ∧ readU32 b 0 = b.length := by
      intro b hbm
      simp only [List.mem_singleton] at hbm
      subst hbm
      refine ⟨by rw [hdlen]; norm_num, ?_⟩
      rw [Atoms.readU32_createAtom, hdlen, hinner]
      norm_num
    have happ := Atoms.parseMP4Atoms_tiled ([0, 0, 0, 26, 116, 109, 112, 111] : Buf)
      ([] : Buf) [Atoms.createAtom "data" (u32be 21 ++ u32be 0 ++ beBytes 2 bpm)]
      hb (by simp)
    simp only [List.flatten_cons, List.flatten_nil, List.append_nil] at happ
    rw [show (([0, 0, 0, 26, 116, 109, 112, 111] : Buf)).length = 8 from by decide, hdlen]
      at happ
    simp only [tiledAtoms] at happ
    rw [hdlen] at happ
    have htypeD : typeAt (Atoms.createAtom "data" (u32be 21 ++ u32be 0 ++ beBytes 2 bpm)) 0
        = fourcc "data" := by
      rw [hdata_eq, typeAt_append_left _ _ 0 (by decide)]
      decide
    rw [htypeD] at happ
    norm_num at happ
    rw [houtlen]
    rw [show (26 : Nat) - 8 = 18 from by norm_num]
    rw [hout_eq]
    exact happ
  · have hsplit : ([0, 0, 0, 26, 116, 109, 112, 111, 0, 0, 0, 18, 100, 97, 116, 97,
        0, 0, 0, 21, 0, 0, 0, 0] : Buf)
        = ([0, 0, 0, 26, 116, 109, 112, 111, 0, 0, 0, 18, 100, 97, 116, 97] : Buf)
            ++ u32be 21 ++ ([0, 0, 0, 0] : Buf) := by decide
    have hout16 : Atoms.createAtom "tmpo"
        (Atoms.createAtom "data" (u32be 21 ++ u32be 0 ++ beBytes 2 bpm))
        = ([0, 0, 0, 26, 116, 109, 112, 111, 0, 0, 0, 18, 100, 97, 116, 97] : Buf)
            ++ u32be 21 ++ (([0, 0, 0, 0] : Buf) ++ beBytes 2 bpm) := by
      rw [hout_lit, hsplit]
      simp
    rw [hout16,
      show (16 : Nat)
        = (([0, 0, 0, 26, 116, 109, 112, 111, 0, 0, 0, 18, 100, 97, 116, 97] : Buf)).length
        from by decide]
    exact (readU32_pre_u32be _ _ 21).trans (by norm_num)
  · rw [hout_lit, bufSlice, hbe2,
      show (24 : Nat) = (([0, 0, 0, 26, 116, 109, 112, 111, 0, 0, 0, 18, 100, 97, 116, 97,
        0, 0, 0, 21, 0, 0, 0, 0] : Buf)).length from by decide,
      List.drop_left]
    rw [hq]
    simp
  · rw [hout_lit,
      show ([0, 0, 0, 26, 116, 109, 112, 111, 0, 0, 0, 18, 100, 97, 116, 97,
        0, 0, 0, 21, 0, 0, 0, 0] : Buf) ++ beBytes 2 bpm
        = ([0, 0, 0, 26, 116, 109, 112, 111, 0, 0, 0, 18, 100, 97, 116, 97,
          0, 0, 0, 21, 0, 0, 0, 0] : Buf) ++ beBytes 2 bpm ++ ([] : Buf) from by simp,
      show (24 : Nat) = (([0, 0, 0, 26, 116, 109, 112, 111, 0, 0, 0, 18, 100, 97, 116, 97,
        0, 0, 0, 21, 0, 0, 0, 0] : Buf)).length from by decide]
    refine (readBE_pre_beBytes _ _ 2 bpm).trans ?_
    rw [show (256 : Nat) ^ 2 = 65536 from by norm_num]
    exact Nat.mod_eq_of_lt h2

/-- Witness for C9: at bpm = 120 the data payload is exactly 0x00 0x78. -/
theorem claim9_witness :
    (0 : Nat) < 120 ∧ 120 < 65536 ∧
      ∃ out, Atoms.createBpmAtom 120 = some out ∧
        bufSlice out 24 26 = [0x00, 0x78] := by
  refine ⟨by decide, by decide, ?_⟩
  obtain ⟨out, ha, _, _, _, _, _, h7, _⟩ :=
    claim9_createBpmAtom_encoding 120 (by decide) (by decide)
  exact ⟨out, ha, by rw [h7]⟩

section ParserSizeBounds

theorem Atoms.parseGo_size_bounds (buf : Buf) (endOffset : Nat) :
    ∀ fuel pos a, a ∈ Atoms.parseGo buf endOffset fuel pos →
      1 ≤ a.size ∧ a.size ≤ buf.length - a.offset := by
  intro fuel
  induction fuel with
  | zero => intro pos a h; simp [Atoms.parseGo] at h
  | succ n ih =>
    intro pos a h
    simp only [Atoms.parseGo] at h
    by_cases hc : pos < endOffset - 8
    · simp only [hc, if_true] at h
      by_cases hs : readU32 buf pos = 0 ∨ readU32 buf pos > buf.length - pos
      · simp [hs] at h
      · simp only [hs, if_false, List.mem_cons] at h
        push_neg at hs
        rcases h with h | h
        · subst h
          refine ⟨?_, ?_⟩
          · show 1 ≤ readU32 buf pos
            omega
          · show readU32 buf pos ≤ buf.length - pos
            omega
        · exact ih (pos + readU32 buf pos) a h
    · simp [hc] at h

theorem Extractor.parseGo_size_bounds_ex (buf : Buf) (endOffset : Nat) :
    ∀ fuel pos a, a ∈ Extractor.parseGo buf endOffset fuel pos →
      8 ≤ a.size ∧ a.size ≤ buf.length - a.offset := by
  intro fuel
  induction fuel with
  | zero => intro pos a h; simp [Extractor.parseGo] at h
  | succ n ih =>
    intro pos a h
    simp only [Extractor.parseGo] at h
    by_cases hc : pos < endOffset - 8
    · simp only [hc, if_true] at h
      by_cases hs : readU32 buf pos = 0 ∨ readU32 buf pos < 8 ∨
          readU32 buf pos > buf.length - pos
      · simp [hs] at h
      · simp only [hs, if_false, List.mem_cons] at h
        push_neg at hs
        rcases h with h | h
        · subst h
          refine ⟨?_, ?_⟩
          · show 8 ≤ readU32 buf pos
            omega
          · show readU32 buf pos ≤ buf.length - pos
            omega
        · exact ih (pos + readU32 buf pos) a h
    · simp [hc] at h

theorem Atoms.parseMP4Atoms_stops_on_zero (buf : Buf) (offset : Nat) (ml : Option Nat)
    (h : readU32 buf offset = 0) : Atoms.parseMP4Atoms buf offset ml = [] := by
  simp only [Atoms.parseMP4Atoms, Atoms.parseGo, h]
  split <;> simp

theorem Extractor.parseAtoms_stops_on_zero (buf : Buf) (offset : Nat) (ml : Option Nat)
    (h : readU32 buf offset = 0) : Extractor.parseAtoms buf offset ml = [] := by
  simp only [Extractor.parseAtoms, Extractor.parseGo, h]
  split <;> simp

theorem Extractor.parseAtoms_stops_on_small (buf : Buf) (offset : Nat) (ml : Option Nat)
    (h : readU32 buf offset < 8) : Extractor.parseAtoms buf offset ml = [] := by
  simp only [Extractor.parseAtoms, Extractor.parseGo]
  split
  · rw [if_pos (Or.inr (Or.inl h))]
  · rfl

end ParserSizeBounds

/-- C5 counterexample: the parsers never fail.  On the window
`[0,0,0,1,'f','r','e','e', 0,0,0,0,0,0,0,24, 0,...]` — an atom with size
field 1, which per the claim should trigger a 64-bit extended-size read
of 24 — `parseMP4Atoms` instead returns an ordinary atom of size 1 (and
then strides by 1 byte), while the extractor parser just stops; and on a
window whose declared size 100 extends past its 16 bytes, both parsers
return the atoms so far (here none) rather than failing with
`Truncated`. -/
theorem claim5_counterexample :
    Atoms.parseMP4Atoms
        [0, 0, 0, 1, 102, 114, 101, 101, 0, 0, 0, 0, 0, 0, 0, 24,
          0, 0, 0, 0, 0, 0, 0, 0] 0 none
      = [⟨fourcc "free", 0, 1, 8⟩] ∧
    Extractor.parseAtoms
        [0, 0, 0, 1, 102, 114, 101, 101, 0, 0, 0, 0, 0, 0, 0, 24,
          0, 0, 0, 0, 0, 0, 0, 0] 0 none
      = [] ∧
    Atoms.parseMP4Atoms
        [0, 0, 0, 100, 109, 111, 111, 118, 0, 0, 0, 0, 0, 0, 0, 0] 0 none = [] ∧
    Extractor.parseAtoms
        [0, 0, 0, 100, 109, 111, 111, 118, 0, 0, 0, 0, 0, 0, 0, 0] 0 none = [] := by
  refine ⟨by decide, by decide, by decide, by decide⟩

/-- C5 amended: neither parser ever fails and neither reads a 64-bit
extended size.  Iteration stops silently: every atom returned by
`parseMP4Atoms` has a size of at least 1 (sizes 1..7, including the
64-bit sentinel 1, are treated as ordinary sizes) that fits in the
buffer; every atom returned by the extractor `parseAtoms` has a size of
at least 8 that fits; a leading size field of 0 stops both parsers with
the atoms collected so far, and a leading size below 8 stops the
extractor parser. -/
theorem claim5_amended_parsers_never_fail (buf : Buf) (offset : Nat) (ml : Option Nat) :
    (∀ a ∈ Atoms.parseMP4Atoms buf offset ml,
      1 ≤ a.size ∧ a.offset + a.size ≤ buf.length) ∧
    (∀ a ∈ Extractor.parseAtoms buf offset ml,
      8 ≤ a.size ∧ a.offset + a.size ≤ buf.length) ∧
    (readU32 buf offset = 0 →
      Atoms.parseMP4Atoms buf offset ml = [] ∧ Extractor.parseAtoms buf offset ml = []) ∧
    (readU32 buf offset < 8 → Extractor.parseAtoms buf offset ml = []) := by
  refine ⟨?_, ?_, ?_, ?_⟩
  · intro a h
    have := Atoms.parseGo_size_bounds buf _ _ offset a h
    omega
  · intro a h
    have := Extractor.parseGo_size_bounds_ex buf _ _ offset a h
    omega
  · intro h
    exact ⟨Atoms.parseMP4Atoms_stops_on_zero buf offset ml h,
      Extractor.parseAtoms_stops_on_zero buf offset ml h⟩
  · intro h
    exact Extractor.parseAtoms_stops_on_small buf offset ml h

/-- Witness for C5: the amended theorem applied at the size-1 window and
at a two-atom window. -/
theorem claim5_amended_witness :
    ((⟨fourcc "free", 0, 12, 8⟩ : MP4Atom) ∈
        Extractor.parseAtoms
          [0, 0, 0, 12, 102, 114, 101, 101, 0, 0, 0, 0,
            0, 0, 0, 12, 102, 114, 101, 101, 0, 0, 0, 0] 0 none) ∧
      8 ≤ 12 ∧ 0 + 12 ≤ 24 ∧
      readU32 [0, 0, 0, 1, 102, 114, 101, 101, 0, 0, 0, 0, 0, 0, 0, 24,
          0, 0, 0, 0, 0, 0, 0, 0] 0 < 8 ∧
      Extractor.parseAtoms [0, 0, 0, 1, 102, 114, 101, 101, 0, 0, 0, 0, 0, 0, 0, 24,
          0, 0, 0, 0, 0, 0, 0, 0] 0 none = [] := by
  have hmem : (⟨fourcc "free", 0, 12, 8⟩ : MP4Atom) ∈
      Extractor.parseAtoms
        [0, 0, 0, 12, 102, 114, 101, 101, 0, 0, 0, 0,
          0, 0, 0, 12, 102, 114, 101, 101, 0, 0, 0, 0] 0 none := by decide
  have h1 := ((claim5_amended_parsers_never_fail
    [0, 0, 0, 12, 102, 114, 101, 101, 0, 0, 0, 0,
      0, 0, 0, 12, 102, 114, 101, 101, 0, 0, 0, 0] 0 none).2.1)
    ⟨fourcc "free", 0, 12, 8⟩ hmem
  have h2 := ((claim5_amended_parsers_never_fail
    [0, 0, 0, 1, 102, 114, 101, 101, 0, 0, 0, 0, 0, 0, 0, 24,
      0, 0, 0, 0, 0, 0, 0, 0] 0 none).2.2.2) (by decide)
  exact ⟨hmem, h1.1, h1.2, by decide, h2⟩

namespace Extractor

/-- Parsed `stsc` entry `{ firstChunk, samplesPerChunk, sampleDescriptionIndex }`. -/
structure StscEntry where
  firstChunk : Nat
  samplesPerChunk : Nat
  sampleDescriptionIndex : Nat
deriving Repr, DecidableEq, Inhabited

/-- Chunk map entry `{ chunkIndex, sampleStart, sampleCount }`. -/
structure ChunkMapEntry where
  chunkIndex : Nat
  sampleStart : Nat
  sampleCount : Nat
deriving Repr, DecidableEq, Inhabited

/-- The inner downward scan of `buildChunkSampleMap` (src/extractor.js):
for `i` from `stscEntries.length - 1` down to 0, take the first entry
with `chunkNumber >= firstChunk` and break; the initial value is the
`samplesPerChunk` of entry 0. -/
def spcScan (entries : List StscEntry) (chunkNumber : Nat) : Nat → Nat
  | 0 => (entries.getD 0 default).samplesPerChunk
  | i + 1 =>
    let e := entries.getD i default
    if chunkNumber ≥ e.firstChunk then e.samplesPerChunk
    else spcScan entries chunkNumber i

/-- Loop of `buildChunkSampleMap(stscEntries, totalChunks)`: one map
entry per chunk index, accumulating `currentSampleIndex`. -/
def buildCSMGo (entries : List StscEntry) : Nat → Nat → Nat → List ChunkMapEntry
  | 0, _, _ => []
  | remaining + 1, chunkIndex, cur =>
    let spc := spcScan entries (chunkIndex + 1) entries.length
    ⟨chunkIndex, cur, spc⟩ :: buildCSMGo entries remaining (chunkIndex + 1) (cur + spc)

/-- `buildChunkSampleMap` (src/extractor.js). -/
def buildChunkSampleMap (entries : List StscEntry) (totalChunks : Nat) : List ChunkMapEntry :=
  buildCSMGo entries totalChunks 0 0

end Extractor

section Claim8Lemmas

theorem Extractor.buildCSMGo_getD (entries : List Extractor.StscEntry) :
    ∀ remaining chunkIndex cur j, j < remaining →
      ((Extractor.buildCSMGo entries remaining chunkIndex cur).getD j default).chunkIndex
          = chunkIndex + j ∧
      ((Extractor.buildCSMGo entries remaining chunkIndex cur).getD j default).sampleCount
          = Extractor.spcScan entries (chunkIndex + j + 1) entries.length := by
  intro remaining
  induction remaining with
  | zero => intro ci cur j hj; omega
  | succ n ih =>
    intro ci cur j hj
    cases j with
    | zero => simp [Extractor.buildCSMGo]
    | succ m =>
      have := ih (ci + 1) (cur + Extractor.spcScan entries (ci + 1) entries.length) m
        (by omega)
      simp only [Extractor.buildCSMGo, List.getD_cons_succ]
      refine ⟨?_, ?_⟩
      · rw [this.1]; omega
      · rw [this.2]
        congr 1
        omega

theorem Extractor.spcScan_spec (entries : List Extractor.StscEntry) (k : Nat) :
    ∀ i, i ≤ entries.length →
      (∃ j, j < i ∧ (entries.getD j default).firstChunk ≤ k) →
      ∃ j, j < i ∧ (entries.getD j default).firstChunk ≤ k ∧
        (∀ j2, j2 < i → (entries.getD j2 default).firstChunk ≤ k → j2 ≤ j) ∧
        Extractor.spcScan entries k i = (entries.getD j default).samplesPerChunk := by
  intro i
  induction i with
  | zero =>
    intro _ hex
    obtain ⟨j, hj, _⟩ := hex
    omega
  | succ n ih =>
    intro hle hex
    by_cases hn : (entries.getD n default).firstChunk ≤ k
    · refine ⟨n, by omega, hn, fun j2 hj2 _ => by omega, ?_⟩
      simp only [Extractor.spcScan]
      rw [if_pos hn]
    · obtain ⟨j, hj, hjfc⟩ := hex
      have hjn : j ≠ n := fun he => hn (he ▸ hjfc)
      obtain ⟨j3, hj3, hfc3, hmax3, hval3⟩ := ih (by omega) ⟨j, by omega, hjfc⟩
      refine ⟨j3, by omega, hfc3, ?_, ?_⟩
      · intro j2 hj2 hfc2
        have : j2 ≠ n := fun he => hn (he ▸ hfc2)
        exact hmax3 j2 (by omega) hfc2
      · rw [← hval3]
        simp only [Extractor.spcScan]
        rw [if_neg hn]

end Claim8Lemmas

/-- C8: for an stsc table whose 1-based first-chunk values are strictly
increasing and start at 1, `buildChunkSampleMap` assigns chunk `k`
(1-based) the `samplesPerChunk` of the entry with the largest
`firstChunk` less than or equal to `k`. -/
theorem claim8_stsc_largest_first_chunk (entries : List Extractor.StscEntry)
    (totalChunks k : Nat)
    (hne : entries ≠ [])
    (hmono : entries.Pairwise (fun a b => a.firstChunk < b.firstChunk))
    (hfirst : (entries.getD 0 default).firstChunk = 1)
    (hk1 : 1 ≤ k) (hk2 : k ≤ totalChunks) :
    ∃ e ∈ entries, e.firstChunk ≤ k ∧
      (∀ e2 ∈ entries, e2.firstChunk ≤ k → e2.firstChunk ≤ e.firstChunk) ∧
      ((Extractor.buildChunkSampleMap entries totalChunks).getD (k - 1) default).chunkIndex
        = k - 1 ∧
      ((Extractor.buildChunkSampleMap entries totalChunks).getD (k - 1) default).sampleCount
        = e.samplesPerChunk := by
  have hlen0 : 0 < entries.length := List.length_pos.mpr hne
  obtain ⟨j, hj, hfc, hmax, hval⟩ :=
    Extractor.spcScan_spec entries k entries.length (Nat.le_refl _)
      ⟨0, hlen0, by omega⟩
  have hidx := List.pairwise_iff_getElem.mp hmono
  refine ⟨entries.getD j default, getD_mem entries j hj default, hfc, ?_, ?_, ?_⟩
  · intro e2 he2 hfc2
    obtain ⟨j2, hj2, hj2e⟩ := List.mem_iff_getElem.mp he2
    have hgd2 : entries.getD j2 default = e2 := by
      simp [List.getD, List.getElem?_eq_getElem hj2, hj2e]
    rcases Nat.lt_trichotomy j2 j with hlt | heq | hgt
    · have := hidx j2 j hj2 hj hlt
      rw [hj2e] at this
      have hgdj : entries.getD j default = entries[j] := by
        simp [List.getD, List.getElem?_eq_getElem hj]
      rw [hgdj]
      omega
    · subst heq
      rw [← hgd2]
    · have := hmax j2 hj2 (hgd2 ▸ hfc2)
      omega
  · rw [Extractor.buildChunkSampleMap,
      (Extractor.buildCSMGo_getD entries totalChunks 0 0 (k - 1) (by omega)).1]
    omega
  · rw [Extractor.buildChunkSampleMap,
      (Extractor.buildCSMGo_getD entries totalChunks 0 0 (k - 1) (by omega)).2,
      show 0 + (k - 1) + 1 = k by omega, hval]

/-- Witness for C8: a two-entry stsc table `(1,10),(3,5)` over four
chunks; chunk 4 is assigned 5 samples, from the entry with the largest
first chunk below it. -/
theorem claim8_witness :
    ∃ e ∈ [Extractor.StscEntry.mk 1 10 1, Extractor.StscEntry.mk 3 5 1],
      e.firstChunk ≤ 4 ∧
      (∀ e2 ∈ [Extractor.StscEntry.mk 1 10 1, Extractor.StscEntry.mk 3 5 1],
        e2.firstChunk ≤ 4 → e2.firstChunk ≤ e.firstChunk) ∧
      ((Extractor.buildChunkSampleMap
          [Extractor.StscEntry.mk 1 10 1, Extractor.StscEntry.mk 3 5 1] 4).getD 3
            default).chunkIndex = 3 ∧
      ((Extractor.buildChunkSampleMap
          [Extractor.StscEntry.mk 1 10 1, Extractor.StscEntry.mk 3 5 1] 4).getD 3
            default).sampleCount = e.samplesPerChunk :=
  claim8_stsc_largest_first_chunk
    [Extractor.StscEntry.mk 1 10 1, Extractor.StscEntry.mk 3 5 1] 4 4
    (by decide) (by decide) (by decide) (by decide) (by decide)

section WriteLemmas

theorem length_writeBE (buf : Buf) (pos : Nat) :
    ∀ w v, (writeBE buf pos w v).length = buf.length := by
  intro w
  induction w generalizing buf with
  | zero => intro v; rfl
  | succ n ih =>
    intro v
    simp only [writeBE]
    rw [ih]
    simp

theorem byteAt_writeBE_outside (buf : Buf) (pos : Nat) :
    ∀ w v q, (q < pos ∨ pos + w ≤ q) → byteAt (writeBE buf pos w v) q = byteAt buf q := by
  intro w
  induction w generalizing buf with
  | zero => intro v q _; rfl
  | succ n ih =>
    intro v q hq
    simp only [writeBE]
    rw [ih (buf.set (pos + n) (v % 256)) (v / 256) q (by omega)]
    have hne : pos + n ≠ q := by omega
    simp [byteAt, List.getD, List.getElem?_set_ne hne]

theorem readBE_congr (b1 b2 : Buf) (pos : Nat) :
    ∀ w, (∀ q, pos ≤ q → q < pos + w → byteAt b1 q = byteAt b2 q) →
      readBE b1 pos w = readBE b2 pos w := by
  intro w
  induction w with
  | zero => intro _; rfl
  | succ n ih =>
    intro h
    simp only [readBE]
    rw [ih (fun q h1 h2 => h q h1 (by omega)), h (pos + n) (by omega) (by omega)]

theorem readBE_writeBE (buf : Buf) (pos : Nat) :
    ∀ w v, pos + w ≤ buf.length → v < 256 ^ w →
      readBE (writeBE buf pos w v) pos w = v := by
  intro w
  induction w generalizing buf with
  | zero =>
    intro v _ hv
    simp [readBE]
    omega
  | succ n ih =>
    intro v hlen hv
    simp only [writeBE, readBE]
    have h1 : readBE (writeBE (buf.set (pos + n) (v % 256)) pos n (v / 256)) pos n
        = v / 256 := by
      apply ih
      · simp; omega
      · have : (256 : Nat) ^ (n + 1) = 256 ^ n * 256 := by ring
        rw [this] at hv
        exact Nat.div_lt_of_lt_mul (by omega)
    have h2 : byteAt (writeBE (buf.set (pos + n) (v % 256)) pos n (v / 256)) (pos + n)
        = v % 256 := by
      rw [byteAt_writeBE_outside _ _ _ _ _ (by omega)]
      have hlt : pos + n < buf.length := by omega
      simp [byteAt, List.getD, List.getElem?_set_eq_of_lt _ (by simpa using hlt)]
    rw [h1, h2]
    omega

end WriteLemmas

namespace Atoms

/-- A chunk-offset table entry read by the rewriter walk: its byte
position in the buffer, its width (4 for `stco`, 8 for `co64`) and the
value it held when read. -/
structure ChunkEntry where
  pos : Nat
  width : Nat
  val : Nat
deriving Repr, DecidableEq

/-- Two table entries occupy disjoint byte regions. -/
def entryDisjoint (e1 e2 : ChunkEntry) : Prop :=
  e1.pos + e1.width ≤ e2.pos ∨ e2.pos + e2.width ≤ e1.pos

instance (e1 e2 : ChunkEntry) : Decidable (entryDisjoint e1 e2) := by
  unfold entryDisjoint; infer_instance

/-- Entry loop of `updateChunkOffsets` (src/atoms.js): processes
`remaining` entries starting at byte position `op`, collecting each
entry it reads.  The Node calls throw (caught by the enclosing
try/catch, first component `false`) on an out-of-range read and on a
write whose value is out of range for the width; entries written before
a throw stay written.  `Number(readBigUInt64BE(...))` is modelled as the
exact value; that matches Node only below 2^53, which the main theorem
assumes. -/
def updEntries (delta : Int) (thr w : Nat) :
    Nat → Nat → Buf → Bool × Buf × List ChunkEntry
  | 0, _, buf => (true, buf, [])
  | remaining + 1, op, buf =>
    if op + w ≤ buf.length then
      let e := readBE buf op w
      if thr ≤ e then
        let ne : Int := (e : Int) + delta
        if 0 ≤ ne ∧ ne < (256 : Int) ^ w then
          let r := updEntries delta thr w remaining (op + w) (writeBE buf op w ne.toNat)
          (r.1, r.2.1, ⟨op, w, e⟩ :: r.2.2)
        else (false, buf, [⟨op, w, e⟩])
      else
        let r := updEntries delta thr w remaining (op + w) buf
        (r.1, r.2.1, ⟨op, w, e⟩ :: r.2.2)
    else (false, buf, [])

/-- One `stco`/`co64` table: read `entryCount` at `pos + 12` (a throw,
caught outside, if out of range), then run the entry loop from
`pos + 16`. -/
def processTable (delta : Int) (thr : Nat) (w pos : Nat) (buf : Buf) :
    Bool × Buf × List ChunkEntry :=
  if pos + 16 ≤ buf.length then
    updEntries delta thr w (readU32 buf (pos + 12)) (pos + 16) buf
  else (false, buf, [])

/-- Container types the chunk-offset rewriter recurses into. -/
def chunkContainers : List (List Nat) :=
  [fourcc "trak", fourcc "mdia", fourcc "minf", fourcc "stbl", fourcc "moov"]

/-- `searchAtoms` of `updateChunkOffsets` / `updateChunkOffsetsForStem`
(src/atoms.js), fuelled.  Returns the updated buffer and the list of
table entries the walk read.  On a caught throw inside a table the scan
resumes at `pos + 8`; after a completed table it resumes at
`pos + size`. -/
def searchAtoms (delta : Int) (thr : Nat) :
    Nat → Nat → Nat → Buf → Buf × List ChunkEntry
  | 0, _, _, buf => (buf, [])
  | fuel + 1, pos, endP, buf =>
    if pos < endP - 8 ∧ pos < buf.length - 8 then
      let size := readU32 buf pos
      if size < 8 ∨ size > endP - pos then
        searchAtoms delta thr fuel (pos + 8) endP buf
      else if typeAt buf pos = fourcc "stco" then
        let r := processTable delta thr 4 pos buf
        let rest := searchAtoms delta thr fuel (if r.1 then pos + size else pos + 8) endP r.2.1
        (rest.1, r.2.2 ++ rest.2)
      else if typeAt buf pos = fourcc "co64" then
        let r := processTable delta thr 8 pos buf
        let rest := searchAtoms delta thr fuel (if r.1 then pos + size else pos + 8) endP r.2.1
        (rest.1, r.2.2 ++ rest.2)
      else if typeAt buf pos ∈ chunkContainers then
        let rin := searchAtoms delta thr fuel (pos + 8) (pos + size) buf
        let rest := searchAtoms delta thr fuel (pos + size) endP rin.1
        (rest.1, rin.2 ++ rest.2)
      else
        searchAtoms delta thr fuel (pos + size) endP buf
    else (buf, [])

/-- `updateChunkOffsets(moovBuffer, sizeDelta, shiftThreshold)`
(src/atoms.js 819-888): the buffer after the rewrite.  A call chain
advances the position by at least 8 bytes per fuel unit, so
`length + 1` fuel always suffices. -/
def updateChunkOffsets (moovBuffer : Buf) (sizeDelta : Int) (shiftThreshold : Nat) : Buf :=
  (searchAtoms sizeDelta shiftThreshold (moovBuffer.length + 1) 0
    moovBuffer.length moovBuffer).1

/-- The table entries read by the same walk. -/
def chunkEntriesRead (moovBuffer : Buf) (sizeDelta : Int) (shiftThreshold : Nat) :
    List ChunkEntry :=
  (searchAtoms sizeDelta shiftThreshold (moovBuffer.length + 1) 0
    moovBuffer.length moovBuffer).2

/-- `updateChunkOffsetsForStem` (src/atoms.js 979-1048) is the same
algorithm as `updateChunkOffsets`; the two source copies differ only in
logging. -/
def updateChunkOffsetsForStem : Buf → Int → Nat → Buf := updateChunkOffsets

end Atoms

section UpdEntriesLemmas

theorem Atoms.updEntries_oob (delta : Int) (thr w n op : Nat) (buf : Buf)
    (h : ¬ op + w ≤ buf.length) :
    Atoms.updEntries delta thr w (n + 1) op buf = (false, buf, []) := by
  simp only [Atoms.updEntries]
  rw [if_neg h]

theorem Atoms.updEntries_write (delta : Int) (thr w n op : Nat) (buf : Buf)
    (h1 : op + w ≤ buf.length) (h2 : thr ≤ readBE buf op w)
    (h3 : 0 ≤ (readBE buf op w : Int) + delta ∧
      (readBE buf op w : Int) + delta < (256 : Int) ^ w) :
    Atoms.updEntries delta thr w (n + 1) op buf
      = ((Atoms.updEntries delta thr w n (op + w)
            (writeBE buf op w ((readBE buf op w : Int) + delta).toNat)).1,
         (Atoms.updEntries delta thr w n (op + w)
            (writeBE buf op w ((readBE buf op w : Int) + delta).toNat)).2.1,
         ⟨op, w, readBE buf op w⟩ ::
           (Atoms.updEntries delta thr w n (op + w)
             (writeBE buf op w ((readBE buf op w : Int) + delta).toNat)).2.2) := by
  simp only [Atoms.updEntries]
  rw [if_pos h1, if_pos h2, if_pos h3]

theorem Atoms.updEntries_throw (delta : Int) (thr w n op : Nat) (buf : Buf)
    (h1 : op + w ≤ buf.length) (h2 : thr ≤ readBE buf op w)
    (h3 : ¬(0 ≤ (readBE buf op w : Int) + delta ∧
      (readBE buf op w : Int) + delta < (256 : Int) ^ w)) :
    Atoms.updEntries delta thr w (n + 1) op buf
      = (false, buf, [⟨op, w, readBE buf op w⟩]) := by
  simp only [Atoms.updEntries]
  rw [if_pos h1, if_pos h2, if_neg h3]

theorem Atoms.updEntries_skip (delta : Int) (thr w n op : Nat) (buf : Buf)
    (h1 : op + w ≤ buf.length) (h2 : ¬ thr ≤ readBE buf op w) :
    Atoms.updEntries delta thr w (n + 1) op buf
      = ((Atoms.updEntries delta thr w n (op + w) buf).1,
         (Atoms.updEntries delta thr w n (op + w) buf).2.1,
         ⟨op, w, readBE buf op w⟩ ::
           (Atoms.updEntries delta thr w n (op + w) buf).2.2) := by
  simp only [Atoms.updEntries]
  rw [if_pos h1, if_neg h2]

theorem Atoms.updEntries_length (delta : Int) (thr w : Nat) :
    ∀ n op buf, ((Atoms.updEntries delta thr w n op buf).2.1).length = buf.length := by
  intro n
  induction n with
  | zero => intro op buf; rfl
  | succ m ih =>
    intro op buf
    by_cases h1 : op + w ≤ buf.length
    · by_cases h2 : thr ≤ readBE buf op w
      · by_cases h3 : 0 ≤ (readBE buf op w : Int) + delta ∧
            (readBE buf op w : Int) + delta < (256 : Int) ^ w
        · rw [Atoms.updEntries_write delta thr w m op buf h1 h2 h3]
          simp only
          rw [ih, length_writeBE]
        · rw [Atoms.updEntries_throw delta thr w m op buf h1 h2 h3]
      · rw [Atoms.updEntries_skip delta thr w m op buf h1 h2]
        simp only
        rw [ih]
    · rw [Atoms.updEntries_oob delta thr w m op buf h1]

theorem Atoms.updEntries_pos_ge (delta : Int) (thr w : Nat) :
    ∀ n op buf, ∀ en ∈ (Atoms.updEntries delta thr w n op buf).2.2,
      op ≤ en.pos ∧ en.width = w ∧ en.pos + w ≤ buf.length := by
  intro n
  induction n with
  | zero => intro op buf en h; simp [Atoms.updEntries] at h
  | succ m ih =>
    intro op buf en h
    by_cases h1 : op + w ≤ buf.length
    · by_cases h2 : thr ≤ readBE buf op w
      · by_cases h3 : 0 ≤ (readBE buf op w : Int) + delta ∧
            (readBE buf op w : Int) + delta < (256 : Int) ^ w
        · rw [Atoms.updEntries_write delta thr w m op buf h1 h2 h3] at h
          simp only [List.mem_cons] at h
          rcases h with h | h
          · subst h; exact ⟨Nat.le_refl _, rfl, h1⟩
          · have := ih (op + w) _ en h
            rw [length_writeBE] at this
            exact ⟨by omega, this.2.1, this.2.2⟩
        · rw [Atoms.updEntries_throw delta thr w m op buf h1 h2 h3] at h
          simp only [List.mem_singleton] at h
          subst h
          exact ⟨Nat.le_refl _, rfl, h1⟩
      · rw [Atoms.updEntries_skip delta thr w m op buf h1 h2] at h
        simp only [List.mem_cons] at h
        rcases h with h | h
        · subst h; exact ⟨Nat.le_refl _, rfl, h1⟩
        · have := ih (op + w) _ en h
          exact ⟨by omega, this.2.1, this.2.2⟩
    · rw [Atoms.updEntries_oob delta thr w m op buf h1] at h
      simp at h

theorem Atoms.updEntries_pairwise (delta : Int) (thr w : Nat) :
    ∀ n op buf, List.Pairwise Atoms.entryDisjoint (Atoms.updEntries delta thr w n op buf).2.2 := by
  intro n
  induction n with
  | zero => intro op buf; simp [Atoms.updEntries]
  | succ m ih =>
    intro op buf
    by_cases h1 : op + w ≤ buf.length
    · by_cases h2 : thr ≤ readBE buf op w
      · by_cases h3 : 0 ≤ (readBE buf op w : Int) + delta ∧
            (readBE buf op w : Int) + delta < (256 : Int) ^ w
        · rw [Atoms.updEntries_write delta thr w m op buf h1 h2 h3]
          simp only [List.pairwise_cons]
          refine ⟨?_, ih _ _⟩
          intro en hen
          have := Atoms.updEntries_pos_ge delta thr w m (op + w) _ en hen
          left
          simp only
          omega
        · rw [Atoms.updEntries_throw delta thr w m op buf h1 h2 h3]
          simp
      · rw [Atoms.updEntries_skip delta thr w m op buf h1 h2]
        simp only [List.pairwise_cons]
        refine ⟨?_, ih _ _⟩
        intro en hen
        have := Atoms.updEntries_pos_ge delta thr w m (op + w) _ en hen
        left
        simp only
        omega
    · rw [Atoms.updEntries_oob delta thr w m op buf h1]
      simp

theorem Atoms.updEntries_frame (delta : Int) (thr w : Nat) :
    ∀ n op buf q,
      (∀ en ∈ (Atoms.updEntries delta thr w n op buf).2.2,
        q < en.pos ∨ en.pos + en.width ≤ q) →
      byteAt (Atoms.updEntries delta thr w n op buf).2.1 q = byteAt buf q := by
  intro n
  induction n with
  | zero => intro op buf q _; rfl
  | succ m ih =>
    intro op buf q hq
    by_cases h1 : op + w ≤ buf.length
    · by_cases h2 : thr ≤ readBE buf op w
      · by_cases h3 : 0 ≤ (readBE buf op w : Int) + delta ∧
            (readBE buf op w : Int) + delta < (256 : Int) ^ w
        · rw [Atoms.updEntries_write delta thr w m op buf h1 h2 h3] at hq ⊢
          simp only at hq ⊢
          have hhead := hq ⟨op, w, readBE buf op w⟩ (by simp)
          simp only at hhead
          rw [ih (op + w) _ q (fun en hen => hq en (by simp [hen]))]
          exact byteAt_writeBE_outside buf op w _ q hhead
        · rw [Atoms.updEntries_throw delta thr w m op buf h1 h2 h3]
      · rw [Atoms.updEntries_skip delta thr w m op buf h1 h2] at hq ⊢
        simp only at hq ⊢
        exact ih (op + w) _ q (fun en hen => hq en (by simp [hen]))
    · rw [Atoms.updEntries_oob delta thr w m op buf h1]

theorem Atoms.updEntries_correct (delta : Int) (thr w : Nat) :
    ∀ n op buf,
      (∀ en ∈ (Atoms.updEntries delta thr w n op buf).2.2, thr ≤ en.val →
        0 ≤ (en.val : Int) + delta ∧ (en.val : Int) + delta < (256 : Int) ^ en.width) →
      ∀ en ∈ (Atoms.updEntries delta thr w n op buf).2.2,
        readBE (Atoms.updEntries delta thr w n op buf).2.1 en.pos en.width
          = if thr ≤ en.val then ((en.val : Int) + delta).toNat else en.val := by
  intro n
  induction n with
  | zero => intro op buf _ en h; simp [Atoms.updEntries] at h
  | succ m ih =>
    intro op buf hr en h
    by_cases h1 : op + w ≤ buf.length
    · by_cases h2 : thr ≤ readBE buf op w
      · by_cases h3 : 0 ≤ (readBE buf op w : Int) + delta ∧
            (readBE buf op w : Int) + delta < (256 : Int) ^ w
        · rw [Atoms.updEntries_write delta thr w m op buf h1 h2 h3] at hr h ⊢
          simp only [List.mem_cons] at h
          simp only at hr ⊢
          rcases h with h | h
          · subst h
            simp only [if_pos h2]
            have hcast : ((256 : Nat) ^ w : Int) = (256 : Int) ^ w := by push_cast; ring
            have htn : ((readBE buf op w : Int) + delta).toNat < 256 ^ w := by omega
            have hframe : readBE (Atoms.updEntries delta thr w m (op + w)
                  (writeBE buf op w ((readBE buf op w : Int) + delta).toNat)).2.1 op w
                = readBE (writeBE buf op w ((readBE buf op w : Int) + delta).toNat) op w := by
              apply readBE_congr
              intro q hq1 hq2
              apply Atoms.updEntries_frame
              intro en2 hen2
              have := Atoms.updEntries_pos_ge delta thr w m (op + w) _ en2 hen2
              left
              omega
            rw [hframe, readBE_writeBE buf op w _ h1 htn]
          · exact ih (op + w) _ (fun e2 he2 hv => hr e2 (by simp [he2]) hv) en h
        · rw [Atoms.updEntries_throw delta thr w m op buf h1 h2 h3] at hr h
          simp only [List.mem_singleton] at h
          subst h
          exact absurd (hr ⟨op, w, readBE buf op w⟩ (by simp) h2) h3
      · rw [Atoms.updEntries_skip delta thr w m op buf h1 h2] at hr h ⊢
        simp only [List.mem_cons] at h
        simp only at hr ⊢
        rcases h with h | h
        · subst h
          simp only [if_neg h2]
          have hframe : readBE (Atoms.updEntries delta thr w m (op + w) buf).2.1 op w
              = readBE buf op w := by
            apply readBE_congr
            intro q hq1 hq2
            apply Atoms.updEntries_frame
            intro en2 hen2
            have := Atoms.updEntries_pos_ge delta thr w m (op + w) buf en2 hen2
            left
            omega
          exact hframe
        · exact ih (op + w) buf (fun e2 he2 hv => hr e2 (by simp [he2]) hv) en h
    · rw [Atoms.updEntries_oob delta thr w m op buf h1] at h
      simp at h

end UpdEntriesLemmas

section ProcessTableLemmas

theorem Atoms.processTable_length (delta : Int) (thr : Nat) (w pos : Nat) (buf : Buf) :
    ((Atoms.processTable delta thr w pos buf).2.1).length = buf.length := by
  by_cases h : pos + 16 ≤ buf.length
  · simp only [Atoms.processTable, if_pos h]
    exact Atoms.updEntries_length delta thr w _ _ buf
  · simp only [Atoms.processTable, if_neg h]

theorem Atoms.processTable_pos_ge (delta : Int) (thr : Nat) (w pos : Nat) (buf : Buf) :
    ∀ en ∈ (Atoms.processTable delta thr w pos buf).2.2,
      pos + 16 ≤ en.pos ∧ en.width = w ∧ en.pos + w ≤ buf.length := by
  intro en h
  by_cases hb : pos + 16 ≤ buf.length
  · simp only [Atoms.processTable, if_pos hb] at h
    exact Atoms.updEntries_pos_ge delta thr w _ _ buf en h
  · simp only [Atoms.processTable, if_neg hb] at h
    simp at h

theorem Atoms.processTable_pairwise (delta : Int) (thr : Nat) (w pos : Nat) (buf : Buf) :
    List.Pairwise Atoms.entryDisjoint (Atoms.processTable delta thr w pos buf).2.2 := by
  by_cases hb : pos + 16 ≤ buf.length
  · simp only [Atoms.processTable, if_pos hb]
    exact Atoms.updEntries_pairwise delta thr w _ _ buf
  · simp only [Atoms.processTable, if_neg hb]
    simp

theorem Atoms.processTable_frame (delta : Int) (thr : Nat) (w pos : Nat) (buf : Buf)
    (q : Nat)
    (hq : ∀ en ∈ (Atoms.processTable delta thr w pos buf).2.2,
      q < en.pos ∨ en.pos + en.width ≤ q) :
    byteAt (Atoms.processTable delta thr w pos buf).2.1 q = byteAt buf q := by
  by_cases hb : pos + 16 ≤ buf.length
  · simp only [Atoms.processTable, if_pos hb] at hq ⊢
    exact Atoms.updEntries_frame delta thr w _ _ buf q hq
  · simp only [Atoms.processTable, if_neg hb]

theorem Atoms.processTable_correct (delta : Int) (thr : Nat) (w pos : Nat) (buf : Buf)
    (hr : ∀ en ∈ (Atoms.processTable delta thr w pos buf).2.2, thr ≤ en.val →
      0 ≤ (en.val : Int) + delta ∧ (en.val : Int) + delta < (256 : Int) ^ en.width) :
    ∀ en ∈ (Atoms.processTable delta thr w pos buf).2.2,
      readBE (Atoms.processTable delta thr w pos buf).2.1 en.pos en.width
        = if thr ≤ en.val then ((en.val : Int) + delta).toNat else en.val := by
  intro en h
  by_cases hb : pos + 16 ≤ buf.length
  · simp only [Atoms.processTable, if_pos hb] at hr h ⊢
    exact Atoms.updEntries_correct delta thr w _ _ buf hr en h
  · simp only [Atoms.processTable, if_neg hb] at h
    simp at h

end ProcessTableLemmas

section SearchAtomsEquations

theorem Atoms.searchAtoms_stop (delta : Int) (thr fuel pos endP : Nat) (buf : Buf)
    (h : ¬(pos < endP - 8 ∧ pos < buf.length - 8)) :
    Atoms.searchAtoms delta thr (fuel + 1) pos endP buf = (buf, []) := by
  simp only [Atoms.searchAtoms]
  rw [if_neg h]

theorem Atoms.searchAtoms_skip (delta : Int) (thr fuel pos endP : Nat) (buf : Buf)
    (h : pos < endP - 8 ∧ pos < buf.length - 8)
    (hsz : readU32 buf pos < 8 ∨ readU32 buf pos > endP - pos) :
    Atoms.searchAtoms delta thr (fuel + 1) pos endP buf
      = Atoms.searchAtoms delta thr fuel (pos + 8) endP buf := by
  simp only [Atoms.searchAtoms]
  rw [if_pos h, if_pos hsz]

theorem Atoms.searchAtoms_stco (delta : Int) (thr fuel pos endP : Nat) (buf : Buf)
    (h : pos < endP - 8 ∧ pos < buf.length - 8)
    (hsz : ¬(readU32 buf pos < 8 ∨ readU32 buf pos > endP - pos))
    (ht : typeAt buf pos = fourcc "stco") :
    Atoms.searchAtoms delta thr (fuel + 1) pos endP buf
      = ((Atoms.searchAtoms delta thr fuel
            (if (Atoms.processTable delta thr 4 pos buf).1 then pos + readU32 buf pos
              else pos + 8) endP (Atoms.processTable delta thr 4 pos buf).2.1).1,
         (Atoms.processTable delta thr 4 pos buf).2.2 ++
           (Atoms.searchAtoms delta thr fuel
            (if (Atoms.processTable delta thr 4 pos buf).1 then pos + readU32 buf pos
              else pos + 8) endP (Atoms.processTable delta thr 4 pos buf).2.1).2) := by
  simp only [Atoms.searchAtoms]
  rw [if_pos h, if_neg hsz, if_pos ht]

theorem Atoms.searchAtoms_co64 (delta : Int) (thr fuel pos endP : Nat) (buf : Buf)
    (h : pos < endP - 8 ∧ pos < buf.length - 8)
    (hsz : ¬(readU32 buf pos < 8 ∨ readU32 buf pos > endP - pos))
    (ht1 : ¬ typeAt buf pos = fourcc "stco")
    (ht : typeAt buf pos = fourcc "co64") :
    Atoms.searchAtoms delta thr (fuel + 1) pos endP buf
      = ((Atoms.searchAtoms delta thr fuel
            (if (Atoms.processTable delta thr 8 pos buf).1 then pos + readU32 buf pos
              else pos + 8) endP (Atoms.processTable delta thr 8 pos buf).2.1).1,
         (Atoms.processTable delta thr 8 pos buf).2.2 ++
           (Atoms.searchAtoms delta thr fuel
            (if (Atoms.processTable delta thr 8 pos buf).1 then pos + readU32 buf pos
              else pos + 8) endP (Atoms.processTable delta thr 8 pos buf).2.1).2) := by
  simp only [Atoms.searchAtoms]
  rw [if_pos h, if_neg hsz, if_neg ht1, if_pos ht]

theorem Atoms.searchAtoms_container (delta : Int) (thr fuel pos endP : Nat) (buf : Buf)
    (h : pos < endP - 8 ∧ pos < buf.length - 8)
    (hsz : ¬(readU32 buf pos < 8 ∨ readU32 buf pos > endP - pos))
    (ht1 : ¬ typeAt buf pos = fourcc "stco")
    (ht2 : ¬ typeAt buf pos = fourcc "co64")
    (ht3 : typeAt buf pos ∈ Atoms.chunkContainers) :
    Atoms.searchAtoms delta thr (fuel + 1) pos endP buf
      = ((Atoms.searchAtoms delta thr fuel (pos + readU32 buf pos) endP
            (Atoms.searchAtoms delta thr fuel (pos + 8) (pos + readU32 buf pos) buf).1).1,
         (Atoms.searchAtoms delta thr fuel (pos + 8) (pos + readU32 buf pos) buf).2 ++
           (Atoms.searchAtoms delta thr fuel (pos + readU32 buf pos) endP
            (Atoms.searchAtoms delta thr fuel (pos + 8) (pos + readU32 buf pos) buf).1).2) := by
  simp only [Atoms.searchAtoms]
  rw [if_pos h, if_neg hsz, if_neg ht1, if_neg ht2, if_pos ht3]

theorem Atoms.searchAtoms_other (delta : Int) (thr fuel pos endP : Nat) (buf : Buf)
    (h : pos < endP - 8 ∧ pos < buf.length - 8)
    (hsz : ¬(readU32 buf pos < 8 ∨ readU32 buf pos > endP - pos))
    (ht1 : ¬ typeAt buf pos = fourcc "stco")
    (ht2 : ¬ typeAt buf pos = fourcc "co64")
    (ht3 : ¬ typeAt buf pos ∈ Atoms.chunkContainers) :
    Atoms.searchAtoms delta thr (fuel + 1) pos endP buf
      = Atoms.searchAtoms delta thr fuel (pos + readU32 buf pos) endP buf := by
  simp only [Atoms.searchAtoms]
  rw [if_pos h, if_neg hsz, if_neg ht1, if_neg ht2, if_neg ht3]

end SearchAtomsEquations

section SearchAtomsLemmas

theorem Atoms.searchAtoms_length (delta : Int) (thr : Nat) :
    ∀ fuel pos endP buf,
      ((Atoms.searchAtoms delta thr fuel pos endP buf).1).length = buf.length := by
  intro fuel
  induction fuel with
  | zero => intro pos endP buf; rfl
  | succ m ih =>
    intro pos endP buf
    by_cases h : pos < endP - 8 ∧ pos < buf.length - 8
    · by_cases hsz : readU32 buf pos < 8 ∨ readU32 buf pos > endP - pos
      · rw [Atoms.searchAtoms_skip delta thr m pos endP buf h hsz]
        exact ih _ _ _
      · by_cases ht1 : typeAt buf pos = fourcc "stco"
        · rw [Atoms.searchAtoms_stco delta thr m pos endP buf h hsz ht1]
          simp only
          rw [ih, Atoms.processTable_length]
        · by_cases ht2 : typeAt buf pos = fourcc "co64"
          · rw [Atoms.searchAtoms_co64 delta thr m pos endP buf h hsz ht1 ht2]
            simp only
            rw [ih, Atoms.processTable_length]
          · by_cases ht3 : typeAt buf pos ∈ Atoms.chunkContainers
            · rw [Atoms.searchAtoms_container delta thr m pos endP buf h hsz ht1 ht2 ht3]
              simp only
              rw [ih, ih]
            · rw [Atoms.searchAtoms_other delta thr m pos endP buf h hsz ht1 ht2 ht3]
              exact ih _ _ _
    · rw [Atoms.searchAtoms_stop delta thr m pos endP buf h]

theorem Atoms.searchAtoms_pos_ge (delta : Int) (thr : Nat) :
    ∀ fuel pos endP buf, ∀ en ∈ (Atoms.searchAtoms delta thr fuel pos endP buf).2,
      pos + 16 ≤ en.pos ∧ (en.width = 4 ∨ en.width = 8) ∧
        en.pos + en.width ≤ buf.length := by
  intro fuel
  induction fuel with
  | zero => intro pos endP buf en h; simp [Atoms.searchAtoms] at h
  | succ m ih =>
    intro pos endP buf en h
    by_cases hc : pos < endP - 8 ∧ pos < buf.length - 8
    · by_cases hsz : readU32 buf pos < 8 ∨ readU32 buf pos > endP - pos
      · rw [Atoms.searchAtoms_skip delta thr m pos endP buf hc hsz] at h
        have := ih _ _ _ en h
        exact ⟨by omega, this.2⟩
      · by_cases ht1 : typeAt buf pos = fourcc "stco"
        · rw [Atoms.searchAtoms_stco delta thr m pos endP buf hc hsz ht1] at h
          simp only at h
          rcases List.mem_append.mp h with h | h
          · have := Atoms.processTable_pos_ge delta thr 4 pos buf en h
            exact ⟨this.1, Or.inl this.2.1, this.2.1 ▸ this.2.2⟩
          · have := ih _ _ _ en h
            rw [Atoms.processTable_length] at this
            have hple : pos ≤ (if (Atoms.processTable delta thr 4 pos buf).1
                then pos + readU32 buf pos else pos + 8) := by
              split <;> omega
            exact ⟨by omega, this.2⟩
        · by_cases ht2 : typeAt buf pos = fourcc "co64"
          · rw [Atoms.searchAtoms_co64 delta thr m pos endP buf hc hsz ht1 ht2] at h
            simp only at h
            rcases List.mem_append.mp h with h | h
            · have := Atoms.processTable_pos_ge delta thr 8 pos buf en h
              exact ⟨this.1, Or.inr this.2.1, this.2.1 ▸ this.2.2⟩
            · have := ih _ _ _ en h
              rw [Atoms.processTable_length] at this
              have hple : pos ≤ (if (Atoms.processTable delta thr 8 pos buf).1
                  then pos + readU32 buf pos else pos + 8) := by
                split <;> omega
              exact ⟨by omega, this.2⟩
          · by_cases ht3 : typeAt buf pos ∈ Atoms.chunkContainers
            · rw [Atoms.searchAtoms_container delta thr m pos endP buf hc hsz ht1 ht2 ht3]
                at h
              simp only at h
              rcases List.mem_append.mp h with h | h
              · have := ih _ _ _ en h
                exact ⟨by omega, this.2⟩
              · have := ih _ _ _ en h
                rw [Atoms.searchAtoms_length] at this
                exact ⟨by omega, this.2⟩
            · rw [Atoms.searchAtoms_other delta thr m pos endP buf hc hsz ht1 ht2 ht3] at h
              have := ih _ _ _ en h
              push_neg at hsz
              exact ⟨by omega, this.2⟩
    · rw [Atoms.searchAtoms_stop delta thr m pos endP buf hc] at h
      simp at h

theorem Atoms.searchAtoms_frame (delta : Int) (thr : Nat) :
    ∀ fuel pos endP buf q,
      (∀ en ∈ (Atoms.searchAtoms delta thr fuel pos endP buf).2,
        q < en.pos ∨ en.pos + en.width ≤ q) →
      byteAt (Atoms.searchAtoms delta thr fuel pos endP buf).1 q = byteAt buf q := by
  intro fuel
  induction fuel with
  | zero => intro pos endP buf q _; rfl
  | succ m ih =>
    intro pos endP buf q hq
    by_cases hc : pos < endP - 8 ∧ pos < buf.length - 8
    · by_cases hsz : readU32 buf pos < 8 ∨ readU32 buf pos > endP - pos
      · rw [Atoms.searchAtoms_skip delta thr m pos endP buf hc hsz] at hq ⊢
        exact ih _ _ _ q hq
      · by_cases ht1 : typeAt buf pos = fourcc "stco"
        · rw [Atoms.searchAtoms_stco delta thr m pos endP buf hc hsz ht1] at hq ⊢
          simp only at hq ⊢
          rw [ih _ _ _ q (fun en hen => hq en (List.mem_append.mpr (Or.inr hen)))]
          exact Atoms.processTable_frame delta thr 4 pos buf q
            (fun en hen => hq en (List.mem_append.mpr (Or.inl hen)))
        · by_cases ht2 : typeAt buf pos = fourcc "co64"
          · rw [Atoms.searchAtoms_co64 delta thr m pos endP buf hc hsz ht1 ht2] at hq ⊢
            simp only at hq ⊢
            rw [ih _ _ _ q (fun en hen => hq en (List.mem_append.mpr (Or.inr hen)))]
            exact Atoms.processTable_frame delta thr 8 pos buf q
              (fun en hen => hq en (List.mem_append.mpr (Or.inl hen)))
          · by_cases ht3 : typeAt buf pos ∈ Atoms.chunkContainers
            · rw [Atoms.searchAtoms_container delta thr m pos endP buf hc hsz ht1 ht2 ht3]
                at hq ⊢
              simp only at hq ⊢
              rw [ih _ _ _ q (fun en hen => hq en (List.mem_append.mpr (Or.inr hen)))]
              exact ih _ _ _ q (fun en hen => hq en (List.mem_append.mpr (Or.inl hen)))
            · rw [Atoms.searchAtoms_other delta thr m pos endP buf hc hsz ht1 ht2 ht3]
                at hq ⊢
              exact ih _ _ _ q hq
    · rw [Atoms.searchAtoms_stop delta thr m pos endP buf hc]

theorem Atoms.searchAtoms_correct (delta : Int) (thr : Nat) :
    ∀ fuel pos endP buf,
      List.Pairwise Atoms.entryDisjoint (Atoms.searchAtoms delta thr fuel pos endP buf).2 →
      (∀ en ∈ (Atoms.searchAtoms delta thr fuel pos endP buf).2, thr ≤ en.val →
        0 ≤ (en.val : Int) + delta ∧ (en.val : Int) + delta < (256 : Int) ^ en.width) →
      ∀ en ∈ (Atoms.searchAtoms delta thr fuel pos endP buf).2,
        readBE (Atoms.searchAtoms delta thr fuel pos endP buf).1 en.pos en.width
          = if thr ≤ en.val then ((en.val : Int) + delta).toNat else en.val := by
  intro fuel
  induction fuel with
  | zero => intro pos endP buf _ _ en h; simp [Atoms.searchAtoms] at h
  | succ m ih =>
    intro pos endP buf hdisj hrange en h
    by_cases hc : pos < endP - 8 ∧ pos < buf.length - 8
    · by_cases hsz : readU32 buf pos < 8 ∨ readU32 buf pos > endP - pos
      · rw [Atoms.searchAtoms_skip delta thr m pos endP buf hc hsz] at hdisj hrange h ⊢
        exact ih _ _ _ hdisj hrange en h
      · by_cases ht1 : typeAt buf pos = fourcc "stco"
        · rw [Atoms.searchAtoms_stco delta thr m pos endP buf hc hsz ht1] at hdisj hrange h ⊢
          simp only at hdisj hrange h ⊢
          rw [List.pairwise_append] at hdisj
          rcases List.mem_append.mp h with hmem | hmem
          · have hvc := Atoms.processTable_correct delta thr 4 pos buf
              (fun e2 he2 => hrange e2 (List.mem_append.mpr (Or.inl he2))) en hmem
            have hfr : readBE (Atoms.searchAtoms delta thr m
                  (if (Atoms.processTable delta thr 4 pos buf).1 then pos + readU32 buf pos
                    else pos + 8) endP (Atoms.processTable delta thr 4 pos buf).2.1).1
                  en.pos en.width
                = readBE (Atoms.processTable delta thr 4 pos buf).2.1 en.pos en.width := by
              apply readBE_congr
              intro q hq1 hq2
              apply Atoms.searchAtoms_frame
              intro en2 hen2
              obtain hd | hd : en.pos + en.width ≤ en2.pos ∨ en2.pos + en2.width ≤ en.pos :=
                hdisj.2.2 en hmem en2 hen2
              · left; omega
              · right; omega
            exact hfr.trans hvc
          · exact ih _ _ _ hdisj.2.1
              (fun e2 he2 => hrange e2 (List.mem_append.mpr (Or.inr he2))) en hmem
        · by_cases ht2 : typeAt buf pos = fourcc "co64"
          · rw [Atoms.searchAtoms_co64 delta thr m pos endP buf hc hsz ht1 ht2]
              at hdisj hrange h ⊢
            simp only at hdisj hrange h ⊢
            rw [List.pairwise_append] at hdisj
            rcases List.mem_append.mp h with hmem | hmem
            · have hvc := Atoms.processTable_correct delta thr 8 pos buf
                (fun e2 he2 => hrange e2 (List.mem_append.mpr (Or.inl he2))) en hmem
              have hfr : readBE (Atoms.searchAtoms delta thr m
                    (if (Atoms.processTable delta thr 8 pos buf).1 then pos + readU32 buf pos
                      else pos + 8) endP (Atoms.processTable delta thr 8 pos buf).2.1).1
                    en.pos en.width
                  = readBE (Atoms.processTable delta thr 8 pos buf).2.1 en.pos en.width := by
                apply readBE_congr
                intro q hq1 hq2
                apply Atoms.searchAtoms_frame
                intro en2 hen2
                obtain hd | hd : en.pos + en.width ≤ en2.pos ∨ en2.pos + en2.width ≤ en.pos :=
                  hdisj.2.2 en hmem en2 hen2
                · left; omega
                · right; omega
              exact hfr.trans hvc
            · exact ih _ _ _ hdisj.2.1
                (fun e2 he2 => hrange e2 (List.mem_append.mpr (Or.inr he2))) en hmem
          · by_cases ht3 : typeAt buf pos ∈ Atoms.chunkContainers
            · rw [Atoms.searchAtoms_container delta thr m pos endP buf hc hsz ht1 ht2 ht3]
                at hdisj hrange h ⊢
              simp only at hdisj hrange h ⊢
              rw [List.pairwise_append] at hdisj
              rcases List.mem_append.mp h with hmem | hmem
              · have hvc := ih _ _ _ hdisj.1
                  (fun e2 he2 => hrange e2 (List.mem_append.mpr (Or.inl he2))) en hmem
                have hfr : readBE (Atoms.searchAtoms delta thr m (pos + readU32 buf pos) endP
                      (Atoms.searchAtoms delta thr m (pos + 8) (pos + readU32 buf pos) buf).1).1
                      en.pos en.width
                    = readBE (Atoms.searchAtoms delta thr m (pos + 8)
                        (pos + readU32 buf pos) buf).1 en.pos en.width := by
                  apply readBE_congr
                  intro q hq1 hq2
                  apply Atoms.searchAtoms_frame
                  intro en2 hen2
                  obtain hd | hd : en.pos + en.width ≤ en2.pos ∨ en2.pos + en2.width ≤ en.pos :=
                    hdisj.2.2 en hmem en2 hen2
                  · left; omega
                  · right; omega
                exact hfr.trans hvc
              · exact ih _ _ _ hdisj.2.1
                  (fun e2 he2 => hrange e2 (List.mem_append.mpr (Or.inr he2))) en hmem
            · rw [Atoms.searchAtoms_other delta thr m pos endP buf hc hsz ht1 ht2 ht3]
                at hdisj hrange h ⊢
              exact ih _ _ _ hdisj hrange en h
    · rw [Atoms.searchAtoms_stop delta thr m pos endP buf hc] at h
      simp at h

end SearchAtomsLemmas

/-- C1: the chunk-offset rewriter (`updateChunkOffsets`, and
`updateChunkOffsetsForStem` which is the same algorithm) applied to the
new `moov` buffer with the original moov end offset as threshold updates
each `stco` (width 4) and `co64` (width 8) entry `e` it finds to
`e + delta` exactly when `e >= threshold`, and leaves every entry below
the threshold unchanged.  Hypotheses: the entries read occupy pairwise
disjoint byte regions (true for any well-formed table layout); an
updated value stays in range of its width (Node throws otherwise); and
`co64` values stay below 2^53 so that the `Number(...)` conversion in
the source is exact. -/
theorem claim1_chunk_offset_threshold (moovBuffer : Buf) (sizeDelta : Int)
    (shiftThreshold : Nat)
    (hdisj : List.Pairwise Atoms.entryDisjoint
      (Atoms.chunkEntriesRead moovBuffer sizeDelta shiftThreshold))
    (hrange : ∀ en ∈ Atoms.chunkEntriesRead moovBuffer sizeDelta shiftThreshold,
      shiftThreshold ≤ en.val →
        0 ≤ (en.val : Int) + sizeDelta ∧
          (en.val : Int) + sizeDelta < (256 : Int) ^ en.width)
    (_h53 : ∀ en ∈ Atoms.chunkEntriesRead moovBuffer sizeDelta shiftThreshold,
      en.val < 2 ^ 53) :
    ∀ en ∈ Atoms.chunkEntriesRead moovBuffer sizeDelta shiftThreshold,
      readBE (Atoms.updateChunkOffsets moovBuffer sizeDelta shiftThreshold)
          en.pos en.width
        = if shiftThreshold ≤ en.val
          then ((en.val : Int) + sizeDelta).toNat
          else en.val := by
  intro en h
  exact Atoms.searchAtoms_correct sizeDelta shiftThreshold (moovBuffer.length + 1) 0
    moovBuffer.length moovBuffer hdisj hrange en h

/-- Witness for C1: a moov holding one stco with entries 100 and 30,
delta 16, threshold 50; 100 (at or past the threshold) becomes 116 and
30 stays 30. -/
theorem claim1_witness :
    (⟨24, 4, 100⟩ : Atoms.ChunkEntry) ∈ Atoms.chunkEntriesRead
        (Atoms.createAtom "moov" (Atoms.createAtom "stco"
          (u32be 0 ++ u32be 2 ++ u32be 100 ++ u32be 30))) 16 50 ∧
    (⟨28, 4, 30⟩ : Atoms.ChunkEntry) ∈ Atoms.chunkEntriesRead
        (Atoms.createAtom "moov" (Atoms.createAtom "stco"
          (u32be 0 ++ u32be 2 ++ u32be 100 ++ u32be 30))) 16 50 ∧
    readBE (Atoms.updateChunkOffsets
        (Atoms.createAtom "moov" (Atoms.createAtom "stco"
          (u32be 0 ++ u32be 2 ++ u32be 100 ++ u32be 30))) 16 50) 24 4 = 116 ∧
    readBE (Atoms.updateChunkOffsets
        (Atoms.createAtom "moov" (Atoms.createAtom "stco"
          (u32be 0 ++ u32be 2 ++ u32be 100 ++ u32be 30))) 16 50) 28 4 = 30 := by
  refine ⟨by decide, by decide, ?_, ?_⟩
  · have := claim1_chunk_offset_threshold
      (Atoms.createAtom "moov" (Atoms.createAtom "stco"
        (u32be 0 ++ u32be 2 ++ u32be 100 ++ u32be 30))) 16 50
      (by decide) (by decide) (by decide) ⟨24, 4, 100⟩ (by decide)
    rw [this]
    decide
  · have := claim1_chunk_offset_threshold
      (Atoms.createAtom "moov" (Atoms.createAtom "stco"
        (u32be 0 ++ u32be 2 ++ u32be 100 ++ u32be 30))) 16 50
      (by decide) (by decide) (by decide) ⟨28, 4, 30⟩ (by decide)
    rw [this]
    decide

/-- Latin1/utf8 bytes of an ASCII string payload (`Buffer.from(s)` /
`buf.write(s)` for the ASCII strings the library writes). -/
def strBytes (s : String) : List Nat := s.toList.map Char.toNat

namespace Atoms

/-- `extractFreeformNamespace(freeformAtom)` (src/atoms.js 1271-1294):
the payload bytes of the `mean` child, `none` where the source returns
null. -/
def extractFreeformNamespace (freeformAtom : Buf) : Option Buf :=
  if 8 + 8 > freeformAtom.length then none
  else
    let meanSize := readU32 freeformAtom 8
    if typeAt freeformAtom 8 ≠ fourcc "mean" then none
    else if 8 + meanSize > freeformAtom.length then none
    else some (bufSlice freeformAtom (8 + 12) (8 + meanSize))

/-- `extractFreeformName(freeformAtom)` (src/atoms.js 1301-1328): the
payload bytes of the `name` child following the `mean` child. -/
def extractFreeformName (freeformAtom : Buf) : Option Buf :=
  if 8 + 4 > freeformAtom.length then none
  else
    let meanSize := readU32 freeformAtom 8
    let offset := 8 + meanSize
    if offset + 8 > freeformAtom.length then none
    else
      let nameSize := readU32 freeformAtom offset
      if typeAt freeformAtom offset ≠ fourcc "name" then none
      else if offset + nameSize > freeformAtom.length then none
      else some (bufSlice freeformAtom (offset + 12) (offset + nameSize))

/-- `createKaraAtom(karaJson)` (src/atoms.js 659-688): a `----` atom
with mean `com.stems`, name `kara`, and a type-1 (UTF-8) data child. -/
def createKaraAtom (karaJson : String) : Buf :=
  let meanAtom := createAtom "mean" (u32be 0 ++ strBytes "com.stems")
  let nameAtom := createAtom "name" (u32be 0 ++ strBytes "kara")
  let dataAtom := createAtom "data" (u32be 1 ++ u32be 0 ++ strBytes karaJson)
  createAtom "----" (meanAtom ++ nameAtom ++ dataAtom)

/-- `createBinaryFreeformAtom(namespace, name, binaryData)`
(src/atoms.js 697-719): a `----` atom with a type-0 (binary) data
child. -/
def createBinaryFreeformAtom (ns nm : String) (binaryData : Buf) : Buf :=
  let meanAtom := createAtom "mean" (u32be 0 ++ strBytes ns)
  let nameAtom := createAtom "name" (u32be 0 ++ strBytes nm)
  let dataAtom := createAtom "data" (u32be 0 ++ u32be 0 ++ binaryData)
  createAtom "----" (meanAtom ++ nameAtom ++ dataAtom)

/-- `updateMetaWithKara(fileBuffer, metaAtom, karaAtomData)`
(src/atoms.js 751-813): returns the new meta content (version/flags
onward, without the 8-byte meta header).  Note the replace path matches
the FIRST `----` child of `ilst`, whatever its (mean, name) key. -/
def updateMetaWithKara (fileBuffer : Buf) (metaAtom : MP4Atom) (karaAtomData : Buf) : Buf :=
  let metaChildren := parseMP4Atoms fileBuffer (metaAtom.dataOffset + 4)
    (some (metaAtom.size - 12))
  match metaChildren.find? (fun a => a.type = fourcc "ilst") with
  | none =>
      let beforeIlst := bufSlice fileBuffer metaAtom.dataOffset
        (metaAtom.dataOffset + metaAtom.size - 8)
      beforeIlst ++ createAtom "ilst" karaAtomData
  | some ilstAtom =>
      let ilstChildren := parseMP4Atoms fileBuffer ilstAtom.dataOffset
        (some (ilstAtom.size - 8))
      match ilstChildren.find? (fun a => a.type = fourcc "----") with
      | some existingKara =>
          let beforeKara := bufSlice fileBuffer ilstAtom.dataOffset existingKara.offset
          let afterKara := bufSlice fileBuffer (existingKara.offset + existingKara.size)
            (ilstAtom.offset + ilstAtom.size)
          let newIlst := createAtom "ilst" (beforeKara ++ karaAtomData ++ afterKara)
          let beforeIlst := bufSlice fileBuffer metaAtom.dataOffset ilstAtom.offset
          let afterIlst := bufSlice fileBuffer (ilstAtom.offset + ilstAtom.size)
            (metaAtom.offset + metaAtom.size)
          beforeIlst ++ newIlst ++ afterIlst
      | none =>
          let beforeNewKara := bufSlice fileBuffer ilstAtom.dataOffset
            (ilstAtom.dataOffset + ilstAtom.size - 8)
          let newIlst := createAtom "ilst" (beforeNewKara ++ karaAtomData)
          let beforeIlst := bufSlice fileBuffer metaAtom.dataOffset ilstAtom.offset
          let afterIlst := bufSlice fileBuffer (ilstAtom.offset + ilstAtom.size)
            (metaAtom.offset + metaAtom.size)
          beforeIlst ++ newIlst ++ afterIlst

/-- Record of an injection just before its chunk-offset rewrite: the
buffer with the new bytes spliced in and all size fields updated, the
moov offset and new moov size delimiting the slice handed to the
rewriter, the original moov end used as threshold, and the size delta. -/
structure MutStage where
  fb : Buf
  moovOffset : Nat
  newMoovSize : Nat
  origMoovEnd : Nat
  sizeDelta : Int
deriving Repr, DecidableEq

/-- Everything `injectStemAtom` (src/atoms.js 895-973) does before its
chunk-offset rewrite: find (or create) `udta`, append the stem atom at
the end of `udta`, bump the `udta` and `moov` size fields.  `none`
models the throw when no `moov` exists. -/
def stemStage (data stemData : Buf) : Option MutStage :=
  let atoms := parseMP4Atoms data 0 none
  match atoms.find? (fun a => a.type = fourcc "moov") with
  | none => none
  | some moovAtom =>
    let originalMoovEnd := moovAtom.offset + moovAtom.size
    let moovChildren := parseMP4Atoms data moovAtom.dataOffset (some (moovAtom.size - 8))
    let step1 :=
      match moovChildren.find? (fun a => a.type = fourcc "udta") with
      | none =>
          let udtaPos := moovAtom.offset + moovAtom.size
          let udtaHeader := u32be 8 ++ fourcc "udta"
          let fb := data.take udtaPos ++ udtaHeader ++ data.drop udtaPos
          let fb := writeU32 fb moovAtom.offset (moovAtom.size + 8)
          (fb, udtaPos, 8, moovAtom.size + 8)
      | some udtaAtom => (data, udtaAtom.offset, udtaAtom.size, moovAtom.size)
    let fb1 := step1.1
    let udtaPos := step1.2.1
    let udtaSize := step1.2.2.1
    let stemAtom := u32be (8 + stemData.length) ++ fourcc "stem" ++ stemData
    let insertPos := udtaPos + udtaSize
    let fb2 := fb1.take insertPos ++ stemAtom ++ fb1.drop insertPos
    let fb3 := writeU32 fb2 udtaPos (udtaSize + stemAtom.length)
    let newMoovSize := step1.2.2.2 + stemAtom.length
    let fb4 := writeU32 fb3 moovAtom.offset newMoovSize
    some ⟨fb4, moovAtom.offset, newMoovSize, originalMoovEnd, (stemAtom.length : Int)⟩

/-- `injectStemAtom(filePath, stemData)` (src/atoms.js 895-973), file
i/o replaced by buffer in / buffer out: the staged mutation above,
followed by the chunk-offset rewrite of the new moov slice (threshold
`originalMoovEnd`) and the copy of the slice back into the file
buffer.  The stem atom is appended at the end of `udta`; no search for
an existing `stem` is made. -/
def injectStemAtom (data stemData : Buf) : Option Buf :=
  (stemStage data stemData).map (fun st =>
    let moovBuffer := bufSlice st.fb st.moovOffset (st.moovOffset + st.newMoovSize)
    let moovBuffer2 := updateChunkOffsetsForStem moovBuffer st.sizeDelta st.origMoovEnd
    st.fb.take st.moovOffset ++ moovBuffer2 ++
      st.fb.drop (st.moovOffset + moovBuffer2.length))

/-- The `hdlr` payload written when `meta` is created
(src/atoms.js 1110-1118). -/
def hdlrData : Buf :=
  [0, 0, 0, 0, 0, 0, 0, 0, 0x6d, 0x64, 0x69, 0x72, 0x61, 0x70, 0x70, 0x6c,
   0, 0, 0, 0, 0, 0, 0, 0, 0]

/-- Everything `injectAtomToIlst` (src/atoms.js 1056-1258) does before
its chunk-offset rewrite: find or create the `udta`/`meta`/`ilst`
chain, replace the matching child of `ilst` (by (mean, name) for `----`
atoms, by the four type bytes otherwise) or append at the end of
`ilst`, and bump the `ilst`, `meta`, `udta` and `moov` size fields by
the delta.  `none` models the throw when no `moov` exists. -/
def ilstStage (fileBuffer0 atomData : Buf) : Option MutStage :=
  let atoms := parseMP4Atoms fileBuffer0 0 none
  match atoms.find? (fun a => a.type = fourcc "moov") with
  | none => none
  | some moovAtom =>
    let originalMoovEnd := moovAtom.offset + moovAtom.size
    let moovChildren := parseMP4Atoms fileBuffer0 moovAtom.dataOffset
      (some (moovAtom.size - 8))
    let step1 :=
      match moovChildren.find? (fun a => a.type = fourcc "udta") with
      | none =>
          let udtaPos := moovAtom.offset + moovAtom.size
          let udtaHeader := u32be 8 ++ fourcc "udta"
          let fb := fileBuffer0.take udtaPos ++ udtaHeader ++ fileBuffer0.drop udtaPos
          let fb := writeU32 fb moovAtom.offset (moovAtom.size + 8)
          (fb, udtaPos, 8)
      | some udtaAtom => (fileBuffer0, udtaAtom.offset, udtaAtom.size)
    let fb1 := step1.1
    let udtaPos := step1.2.1
    let udtaSize := step1.2.2
    let udtaChildren := parseMP4Atoms fb1 (udtaPos + 8) (some (udtaSize - 8))
    let step2 :=
      match udtaChildren.find? (fun a => a.type = fourcc "meta") with
      | none =>
          let metaPos := udtaPos + udtaSize
          let hdlr := createAtom "hdlr" hdlrData
          let meta := createAtom "meta" (u32be 0 ++ hdlr)
          let fb := fb1.take metaPos ++ meta ++ fb1.drop metaPos
          let fb := writeU32 fb udtaPos (udtaSize + meta.length)
          let fb := writeU32 fb moovAtom.offset (readU32 fb moovAtom.offset + meta.length)
          (fb, metaPos, meta.length)
      | some metaAtom => (fb1, metaAtom.offset, metaAtom.size)
    let fb2 := step2.1
    let metaPos := step2.2.1
    let metaSize := step2.2.2
    let metaChildren := parseMP4Atoms fb2 (metaPos + 12) (some (metaSize - 12))
    match metaChildren.find? (fun a => a.type = fourcc "ilst") with
    | none =>
        let insertPos := metaPos + metaSize
        let ilst := createAtom "ilst" atomData
        let fb := fb2.take insertPos ++ ilst ++ fb2.drop insertPos
        let fb := writeU32 fb metaPos (metaSize + ilst.length)
        let fb := writeU32 fb udtaPos (readU32 fb udtaPos + ilst.length)
        let currentMoovSize := readU32 fb moovAtom.offset
        let fb := writeU32 fb moovAtom.offset (currentMoovSize + ilst.length)
        let newMoovSize := currentMoovSize + ilst.length
        some ⟨fb, moovAtom.offset, newMoovSize, originalMoovEnd, (ilst.length : Int)⟩
    | some ilstAtom =>
        let atomType := typeAt atomData 0
        let ilstChildren := parseMP4Atoms fb2 (ilstAtom.offset + 8)
          (some (ilstAtom.size - 8))
        let existingAtom :=
          if atomType = fourcc "----" then
            let newNs := extractFreeformNamespace atomData
            let newName := extractFreeformName atomData
            ilstChildren.find? (fun child =>
              child.type = fourcc "----" ∧
              extractFreeformNamespace
                (bufSlice fb2 child.offset (child.offset + child.size)) = newNs ∧
              extractFreeformName
                (bufSlice fb2 child.offset (child.offset + child.size)) = newName)
          else
            ilstChildren.find? (fun child => child.type = atomType)
        let step3 :=
          match existingAtom with
          | some ex =>
              (fb2.take ex.offset ++ atomData ++ fb2.drop (ex.offset + ex.size),
               (atomData.length : Int) - (ex.size : Int))
          | none =>
              let insertPos := ilstAtom.offset + ilstAtom.size
              (fb2.take insertPos ++ atomData ++ fb2.drop insertPos,
               (atomData.length : Int))
        let fb3 := step3.1
        let sizeDelta := step3.2
        let fb4 := writeU32 fb3 ilstAtom.offset ((ilstAtom.size : Int) + sizeDelta).toNat
        let fb5 := writeU32 fb4 metaPos ((metaSize : Int) + sizeDelta).toNat
        let fb6 := writeU32 fb5 udtaPos ((readU32 fb5 udtaPos : Int) + sizeDelta).toNat
        let currentMoovSize := readU32 fb6 moovAtom.offset
        let newMoovSize := ((currentMoovSize : Int) + sizeDelta).toNat
        let fb7 := writeU32 fb6 moovAtom.offset newMoovSize
        some ⟨fb7, moovAtom.offset, newMoovSize, originalMoovEnd, sizeDelta⟩

/-- `injectAtomToIlst(filePath, atomData)` (src/atoms.js 1056-1258),
file i/o replaced by buffer in / buffer out: the staged mutation above,
followed by the chunk-offset rewrite of the new moov slice (threshold
`originalMoovEnd`, delta `sizeDelta`) and the copy of the slice back
into the file buffer. -/
def injectAtomToIlst (fileBuffer0 atomData : Buf) : Option Buf :=
  (ilstStage fileBuffer0 atomData).map (fun st =>
    let moovBuffer := bufSlice st.fb st.moovOffset (st.moovOffset + st.newMoovSize)
    let moovBuffer2 := updateChunkOffsetsForStem moovBuffer st.sizeDelta st.origMoovEnd
    st.fb.take st.moovOffset ++ moovBuffer2 ++
      st.fb.drop (st.moovOffset + moovBuffer2.length))

end Atoms

/-- Example ilst content for C2: a single freeform atom keyed
(com.stems, vpch). -/
def vpchExample : Buf := Atoms.createBinaryFreeformAtom "com.stems" "vpch" [1]

/-- Example kara freeform atom for C2, keyed (com.stems, kara). -/
def karaExample : Buf := Atoms.createKaraAtom "k"

/-- Example meta atom for C2 whose ilst holds only the vpch atom. -/
def metaExample : Buf := Atoms.createAtom "meta" (u32be 0 ++ Atoms.createAtom "ilst" vpchExample)

/-- The meta atom after the kara write path rebuilds it. -/
def newMetaExample : Buf :=
  Atoms.createAtom "meta"
    (Atoms.updateMetaWithKara metaExample ⟨fourcc "meta", 0, 82, 8⟩ karaExample)

/-- C2 (code bug): the kara write path (`updateMetaWithKara`, reached
from `writeKaraAtom`/`injectKaraAtom`) replaces the FIRST `----` child
of `ilst` regardless of its (mean, name) key, contrary to its own
comments and log messages ("find existing kara", "Replacing existing
kara atom"). Here the only `----` child is keyed (com.stems, vpch); the
write of a (com.stems, kara) atom destroys it: afterwards the single
`----` child is keyed kara and the vpch sibling is gone. -/
theorem claim2_kara_write_replaces_other_key :
    Atoms.parseMP4Atoms metaExample 0 none = [⟨fourcc "meta", 0, 82, 8⟩] ∧
    Atoms.parseMP4Atoms metaExample 12 (some 70) = [⟨fourcc "ilst", 12, 70, 20⟩] ∧
    Atoms.parseMP4Atoms metaExample 20 (some 62) = [⟨fourcc "----", 20, 62, 28⟩] ∧
    Atoms.extractFreeformNamespace (bufSlice metaExample 20 82)
      = some (strBytes "com.stems") ∧
    Atoms.extractFreeformName (bufSlice metaExample 20 82) = some (strBytes "vpch") ∧
    Atoms.extractFreeformNamespace karaExample = some (strBytes "com.stems") ∧
    Atoms.extractFreeformName karaExample = some (strBytes "kara") ∧
    strBytes "kara" ≠ strBytes "vpch" ∧
    Atoms.parseMP4Atoms newMetaExample 12 (some 70) = [⟨fourcc "ilst", 12, 70, 20⟩] ∧
    Atoms.parseMP4Atoms newMetaExample 20 (some 62) = [⟨fourcc "----", 20, 62, 28⟩] ∧
    Atoms.extractFreeformName (bufSlice newMetaExample 20 82) = some (strBytes "kara") ∧
    (Atoms.parseMP4Atoms newMetaExample 20 (some 62)).length = 1 := by
  refine ⟨by decide, by decide, by decide, by decide, by decide, by decide,
    by decide, by decide, by decide, by decide, by decide, by decide⟩

/-- Example file for C3: a moov whose udta already holds a stem atom. -/
def stemFileExample : Buf :=
  Atoms.createAtom "moov" (Atoms.createAtom "udta" (Atoms.createAtom "stem" (strBytes "OLD")))

/-- C3 counterexample: `injectStemAtom` never looks for an existing
`stem`; on a file whose udta already holds one it appends a second stem
atom, so udta then contains two stem children (old body intact, new body
appended), not exactly one as the claim states. -/
theorem claim3_counterexample :
    Atoms.injectStemAtom stemFileExample (strBytes "NEW")
      = some [0, 0, 0, 38, 109, 111, 111, 118, 0, 0, 0, 30, 117, 100, 116, 97,
          0, 0, 0, 11, 115, 116, 101, 109, 79, 76, 68,
          0, 0, 0, 11, 115, 116, 101, 109, 78, 69, 87] ∧
    ((Atoms.parseMP4Atoms stemFileExample 16 (some 11)).filter
      (fun a => a.type = fourcc "stem")).length = 1 ∧
    ((Atoms.parseMP4Atoms
        [0, 0, 0, 38, 109, 111, 111, 118, 0, 0, 0, 30, 117, 100, 116, 97,
          0, 0, 0, 11, 115, 116, 101, 109, 79, 76, 68,
          0, 0, 0, 11, 115, 116, 101, 109, 78, 69, 87] 16 (some 22)).filter
      (fun a => a.type = fourcc "stem")).length = 2 ∧
    bufSlice [0, 0, 0, 38, 109, 111, 111, 118, 0, 0, 0, 30, 117, 100, 116, 97,
        0, 0, 0, 11, 115, 116, 101, 109, 79, 76, 68,
        0, 0, 0, 11, 115, 116, 101, 109, 78, 69, 87] 24 27 = strBytes "OLD" ∧
    bufSlice [0, 0, 0, 38, 109, 111, 111, 118, 0, 0, 0, 30, 117, 100, 116, 97,
        0, 0, 0, 11, 115, 116, 101, 109, 79, 76, 68,
        0, 0, 0, 11, 115, 116, 101, 109, 78, 69, 87] 35 38 = strBytes "NEW" := by
  refine ⟨by decide, by decide, by decide, by decide, by decide⟩

section SpliceLemmas

theorem byteAt_take (b : Buf) (n q : Nat) (hq : q < n) :
    byteAt (b.take n) q = byteAt b q := by
  simp [byteAt, List.getD, List.getElem?_take, hq]

theorem byteAt_drop (b : Buf) (n q : Nat) :
    byteAt (b.drop n) q = byteAt b (n + q) := by
  simp [byteAt, List.getD, List.getElem?_drop]

theorem byteAt_bufSlice (b : Buf) (lo hi q : Nat) (hq : q < hi - lo) :
    byteAt (bufSlice b lo hi) q = byteAt b (lo + q) := by
  rw [bufSlice, byteAt_take _ _ _ hq, byteAt_drop]

theorem length_splice (b ins : Buf) (sp cut : Nat) (hsp : sp ≤ b.length) :
    (b.take sp ++ ins ++ b.drop cut).length = sp + ins.length + (b.length - cut) := by
  simp [List.length_take_of_le hsp]
  omega

theorem byteAt_splice_lt (b ins : Buf) (sp cut q : Nat) (hq : q < sp) (hsp : sp ≤ b.length) :
    byteAt (b.take sp ++ ins ++ b.drop cut) q = byteAt b q := by
  rw [List.append_assoc, byteAt_append_left (by rw [List.length_take_of_le hsp]; omega)]
  exact byteAt_take b sp q hq

theorem byteAt_splice_mid (b ins : Buf) (sp cut i : Nat) (hi : i < ins.length)
    (hsp : sp ≤ b.length) :
    byteAt (b.take sp ++ ins ++ b.drop cut) (sp + i) = byteAt ins i := by
  rw [List.append_assoc, byteAt_append_right (by rw [List.length_take_of_le hsp]; omega)]
  rw [List.length_take_of_le hsp]
  have heq : sp + i - sp = i := by omega
  rw [heq, byteAt_append_left hi]

theorem byteAt_splice_right (b ins : Buf) (sp cut q : Nat) (hsp : sp ≤ b.length)
    (hq : cut ≤ q) :
    byteAt (b.take sp ++ ins ++ b.drop cut) (sp + ins.length + (q - cut)) = byteAt b q := by
  rw [byteAt_append_right (by simp [List.length_take_of_le hsp]; try omega)]
  have hlen : (b.take sp ++ ins).length = sp + ins.length := by
    simp [List.length_take_of_le hsp]
  rw [hlen]
  have : sp + ins.length + (q - cut) - (sp + ins.length) = q - cut := by omega
  rw [this, byteAt_drop]
  congr 1
  omega

theorem readU32_writeU32 (buf : Buf) (pos v : Nat) (h : pos + 4 ≤ buf.length)
    (hv : v < 256 ^ 4) : readU32 (writeU32 buf pos v) pos = v :=
  readBE_writeBE buf pos 4 v h hv

theorem byteAt_writeU32_outside (buf : Buf) (pos v q : Nat) (h : q < pos ∨ pos + 4 ≤ q) :
    byteAt (writeU32 buf pos v) q = byteAt buf q :=
  byteAt_writeBE_outside buf pos 4 v q h

theorem readBE_writeU32_outside (buf : Buf) (pos v p2 w : Nat)
    (h : p2 + w ≤ pos ∨ pos + 4 ≤ p2) :
    readBE (writeU32 buf pos v) p2 w = readBE buf p2 w := by
  apply readBE_congr
  intro q hq1 hq2
  exact byteAt_writeU32_outside buf pos v q (by omega)

theorem length_writeU32 (buf : Buf) (pos v : Nat) :
    (writeU32 buf pos v).length = buf.length :=
  length_writeBE buf pos 4 v

end SpliceLemmas

section ParseSound

/-- Atoms returned by the atoms.js loop carry the size and type fields
actually read at their offset, and `dataOffset = offset + 8`. -/
theorem Atoms.parseGo_sound (buf : Buf) (endOffset : Nat) :
    ∀ fuel pos a, a ∈ Atoms.parseGo buf endOffset fuel pos →
      a.size = readU32 buf a.offset ∧ a.type = typeAt buf a.offset ∧
        a.dataOffset = a.offset + 8 := by
  intro fuel
  induction fuel with
  | zero => intro pos a h; simp [Atoms.parseGo] at h
  | succ n ih =>
    intro pos a h
    simp only [Atoms.parseGo] at h
    by_cases hc : pos < endOffset - 8
    · simp only [hc, if_true] at h
      by_cases hs : readU32 buf pos = 0 ∨ readU32 buf pos > buf.length - pos
      · simp [hs] at h
      · simp only [hs, if_false, List.mem_cons] at h
        rcases h with h | h
        · subst h; exact ⟨rfl, rfl, rfl⟩
        · exact ih (pos + readU32 buf pos) a h
    · simp [hc] at h

theorem Atoms.parseMP4Atoms_sound (buf : Buf) (offset : Nat) (ml : Option Nat) (a : MP4Atom)
    (h : a ∈ Atoms.parseMP4Atoms buf offset ml) :
    a.size = readU32 buf a.offset ∧ a.type = typeAt buf a.offset ∧
      a.dataOffset = a.offset + 8 :=
  Atoms.parseGo_sound buf _ _ offset a h

/-- Wrapper-level bounds for atoms.js parse results. -/
theorem Atoms.parseMP4Atoms_bounds (buf : Buf) (offset : Nat) (ml : Option Nat) (a : MP4Atom)
    (h : a ∈ Atoms.parseMP4Atoms buf offset ml) :
    offset ≤ a.offset ∧ 1 ≤ a.size ∧ a.offset + a.size ≤ buf.length := by
  have h1 := Atoms.parseGo_offset_lt buf _ _ offset a h
  have h2 := Atoms.parseGo_size_bounds buf _ _ offset a h
  exact ⟨h1.1, h2.1, by omega⟩

end ParseSound

section SpliceBackLemmas

theorem Atoms.length_updateChunkOffsetsForStem (b : Buf) (d : Int) (t : Nat) :
    (Atoms.updateChunkOffsetsForStem b d t).length = b.length :=
  Atoms.searchAtoms_length d t (b.length + 1) 0 b.length b

theorem length_bufSlice (b : Buf) (lo hi : Nat) :
    (bufSlice b lo hi).length = min (hi - lo) (b.length - lo) := by
  simp [bufSlice]

theorem Atoms.length_spliceBack (fb : Buf) (mvOff nms thr : Nat) (d : Int)
    (hmv : mvOff ≤ fb.length) :
    (fb.take mvOff ++
        Atoms.updateChunkOffsetsForStem (bufSlice fb mvOff (mvOff + nms)) d thr ++
        fb.drop (mvOff +
          (Atoms.updateChunkOffsetsForStem (bufSlice fb mvOff (mvOff + nms)) d thr).length)).length
      = fb.length := by
  rw [length_splice _ _ _ _ hmv, Atoms.length_updateChunkOffsetsForStem, length_bufSlice]
  omega

theorem Atoms.spliceBack_frame (fb : Buf) (mvOff nms thr : Nat) (d : Int) (q : Nat)
    (hmv : mvOff ≤ fb.length)
    (havoid : ∀ en ∈ Atoms.chunkEntriesRead (bufSlice fb mvOff (mvOff + nms)) d thr,
      q < mvOff + en.pos ∨ mvOff + (en.pos + en.width) ≤ q) :
    byteAt (fb.take mvOff ++
        Atoms.updateChunkOffsetsForStem (bufSlice fb mvOff (mvOff + nms)) d thr ++
        fb.drop (mvOff +
          (Atoms.updateChunkOffsetsForStem (bufSlice fb mvOff (mvOff + nms)) d thr).length)) q
      = byteAt fb q := by
  have hlen2 : (Atoms.updateChunkOffsetsForStem (bufSlice fb mvOff (mvOff + nms)) d thr).length
      = (bufSlice fb mvOff (mvOff + nms)).length :=
    Atoms.length_updateChunkOffsetsForStem _ _ _
  have hslen : (bufSlice fb mvOff (mvOff + nms)).length = min nms (fb.length - mvOff) := by
    rw [length_bufSlice]; congr 1; omega
  rcases Nat.lt_trichotomy q mvOff with hq | hq | hq
  · exact byteAt_splice_lt _ _ _ _ _ hq hmv
  · subst hq
    by_cases hz : 0 < (bufSlice fb q (q + nms)).length
    · have hmid := byteAt_splice_mid fb
        (Atoms.updateChunkOffsetsForStem (bufSlice fb q (q + nms)) d thr) q
        (q + (Atoms.updateChunkOffsetsForStem (bufSlice fb q (q + nms)) d thr).length) 0
        (by omega) hmv
      rw [Nat.add_zero] at hmid
      rw [hmid]
      have hfr : byteAt (Atoms.updateChunkOffsetsForStem (bufSlice fb q (q + nms)) d thr) 0
          = byteAt (bufSlice fb q (q + nms)) 0 := by
        apply Atoms.searchAtoms_frame
        intro en hen
        have := havoid en hen
        have hpg := Atoms.searchAtoms_pos_ge d thr ((bufSlice fb q (q + nms)).length + 1) 0
          (bufSlice fb q (q + nms)).length (bufSlice fb q (q + nms)) en hen
        omega
      rw [hfr, byteAt_bufSlice fb q (q + nms) 0 (by omega), Nat.add_zero]
    · have hz2 : (bufSlice fb q (q + nms)).length = 0 := by omega
      have hright := byteAt_splice_right fb
        (Atoms.updateChunkOffsetsForStem (bufSlice fb q (q + nms)) d thr) q
        (q + (Atoms.updateChunkOffsetsForStem (bufSlice fb q (q + nms)) d thr).length) q hmv
        (by omega)
      rw [show q + (Atoms.updateChunkOffsetsForStem (bufSlice fb q (q + nms)) d thr).length
          + (q - (q + (Atoms.updateChunkOffsetsForStem
            (bufSlice fb q (q + nms)) d thr).length)) = q from by omega] at hright
      exact hright
  · rcases Nat.lt_or_ge q (mvOff + (bufSlice fb mvOff (mvOff + nms)).length) with hq2 | hq2
    · have hmid := byteAt_splice_mid fb
        (Atoms.updateChunkOffsetsForStem (bufSlice fb mvOff (mvOff + nms)) d thr) mvOff
        (mvOff + (Atoms.updateChunkOffsetsForStem (bufSlice fb mvOff (mvOff + nms)) d thr).length)
        (q - mvOff) (by omega) hmv
      rw [show mvOff + (q - mvOff) = q from by omega] at hmid
      rw [hmid]
      have hfr : byteAt (Atoms.updateChunkOffsetsForStem (bufSlice fb mvOff (mvOff + nms)) d thr)
            (q - mvOff)
          = byteAt (bufSlice fb mvOff (mvOff + nms)) (q - mvOff) := by
        apply Atoms.searchAtoms_frame
        intro en hen
        have := havoid en hen
        omega
      rw [hfr, byteAt_bufSlice fb mvOff (mvOff + nms) (q - mvOff) (by omega)]
      congr 1
      omega
    · have hright := byteAt_splice_right fb
        (Atoms.updateChunkOffsetsForStem (bufSlice fb mvOff (mvOff + nms)) d thr) mvOff
        (mvOff + (Atoms.updateChunkOffsetsForStem (bufSlice fb mvOff (mvOff + nms)) d thr).length)
        q hmv (by omega)
      rw [show mvOff + (Atoms.updateChunkOffsetsForStem (bufSlice fb mvOff (mvOff + nms)) d thr).length
          + (q - (mvOff + (Atoms.updateChunkOffsetsForStem
            (bufSlice fb mvOff (mvOff + nms)) d thr).length)) = q from by omega] at hright
      exact hright

theorem Atoms.spliceBack_readBE (fb : Buf) (mvOff nms thr : Nat) (d : Int) (p2 w : Nat)
    (hmv : mvOff ≤ fb.length)
    (havoid : ∀ en ∈ Atoms.chunkEntriesRead (bufSlice fb mvOff (mvOff + nms)) d thr,
      p2 + w ≤ mvOff + en.pos ∨ mvOff + (en.pos + en.width) ≤ p2) :
    readBE (fb.take mvOff ++
        Atoms.updateChunkOffsetsForStem (bufSlice fb mvOff (mvOff + nms)) d thr ++
        fb.drop (mvOff +
          (Atoms.updateChunkOffsetsForStem (bufSlice fb mvOff (mvOff + nms)) d thr).length))
        p2 w
      = readBE fb p2 w := by
  apply readBE_congr
  intro q hq1 hq2
  apply Atoms.spliceBack_frame fb mvOff nms thr d q hmv
  intro en hen
  have := havoid en hen
  omega

end SpliceBackLemmas

section ListEqHelpers

theorem list_eq_of_byteAt (l1 l2 : Buf) (hlen : l1.length = l2.length)
    (h : ∀ i, i < l1.length → byteAt l1 i = byteAt l2 i) : l1 = l2 := by
  apply List.ext_getElem?
  intro i
  by_cases hi : i < l1.length
  · have h1 : l1[i]? = some l1[i] := List.getElem?_eq_getElem hi
    have h2 : l2[i]? = some l2[i] := List.getElem?_eq_getElem (hlen ▸ hi)
    have := h i hi
    simp only [byteAt, List.getD, List.get?_eq_getElem?, h1, h2, Option.getD_some] at this
    rw [h1, h2, this]
  · rw [List.getElem?_eq_none (by omega), List.getElem?_eq_none (by omega)]

theorem bufSlice_eq_of_byteAt (b : Buf) (lo hi : Nat) (l : Buf)
    (hhi : hi ≤ b.length) (hlo : lo ≤ hi) (hlen : hi - lo = l.length)
    (h : ∀ i, i < l.length → byteAt b (lo + i) = byteAt l i) : bufSlice b lo hi = l := by
  apply list_eq_of_byteAt
  · rw [length_bufSlice]; omega
  · intro i hi2
    rw [length_bufSlice] at hi2
    rw [byteAt_bufSlice b lo hi i (by omega)]
    exact h i (by omega)

end ListEqHelpers

/-- C3 amended: on a file whose `moov` has a `udta`, `put_stem_atom`
(`injectStemAtom`) does not replace an existing `stem`: it appends a new
`stem` atom, whose body is the raw JSON bytes, at the end boundary of
`udta` (so an existing `stem` child of `udta` survives unchanged and
`udta` then holds both), and bumps the `udta` and `moov` declared sizes
by the appended atom size. -/
theorem claim3_amended_stem_appended (buf stemData : Buf) (mv ud : MP4Atom)
    (st : Atoms.MutStage)
    (hm : (Atoms.parseMP4Atoms buf 0 none).find? (fun a => a.type = fourcc "moov") = some mv)
    (hu : (Atoms.parseMP4Atoms buf mv.dataOffset (some (mv.size - 8))).find?
        (fun a => a.type = fourcc "udta") = some ud)
    (hstage : Atoms.stemStage buf stemData = some st)
    (hudsz : 8 ≤ ud.size)
    (hr1 : ud.size + (8 + stemData.length) < 256 ^ 4)
    (hr2 : mv.size + (8 + stemData.length) < 256 ^ 4)
    (havoid : ∀ en ∈ Atoms.chunkEntriesRead
        (bufSlice st.fb st.moovOffset (st.moovOffset + st.newMoovSize))
        st.sizeDelta st.origMoovEnd,
      ud.offset + ud.size + (8 + stemData.length) ≤ mv.offset + en.pos ∨
        mv.offset + (en.pos + en.width) ≤ ud.offset) :
    ∃ out, Atoms.injectStemAtom buf stemData = some out ∧
      out.length = buf.length + (8 + stemData.length) ∧
      bufSlice out (ud.offset + ud.size) (ud.offset + ud.size + (8 + stemData.length))
        = u32be (8 + stemData.length) ++ fourcc "stem" ++ stemData ∧
      readU32 out ud.offset = ud.size + (8 + stemData.length) ∧
      readU32 out mv.offset = mv.size + (8 + stemData.length) ∧
      (∀ q, q < ud.offset + ud.size →
        (q < ud.offset ∨ ud.offset + 4 ≤ q) →
        (q < mv.offset ∨ mv.offset + 4 ≤ q) →
        (∀ en ∈ Atoms.chunkEntriesRead
            (bufSlice st.fb st.moovOffset (st.moovOffset + st.newMoovSize))
            st.sizeDelta st.origMoovEnd,
          q < mv.offset + en.pos ∨ mv.offset + (en.pos + en.width) ≤ q) →
        byteAt out q = byteAt buf q) := by
  have hsAlen : (u32be (8 + stemData.length) ++ fourcc "stem" ++ stemData).length
      = 8 + stemData.length := by
    have h4 : (fourcc "stem").length = 4 := by decide
    simp [length_u32be, h4]
    omega
  have hmvmem := List.mem_of_find?_eq_some hm
  have hudmem := List.mem_of_find?_eq_some hu
  have hmvb := Atoms.parseMP4Atoms_bounds buf 0 none mv hmvmem
  have hudb := Atoms.parseMP4Atoms_bounds buf mv.dataOffset (some (mv.size - 8)) ud hudmem
  have hmvsound := Atoms.parseMP4Atoms_sound buf 0 none mv hmvmem
  have hdo : mv.dataOffset = mv.offset + 8 := hmvsound.2.2
  have hud8 : mv.offset + 8 ≤ ud.offset := by
    have := hudb.1
    omega
  have hsp : ud.offset + ud.size ≤ buf.length := hudb.2.2
  have hmvlen : mv.offset ≤ buf.length := by
    have := hmvb.2.2
    omega
  set A := u32be (8 + stemData.length) ++ fourcc "stem" ++ stemData with hA
  set FB := writeU32
      (writeU32
        (buf.take (ud.offset + ud.size) ++ A ++ buf.drop (ud.offset + ud.size))
        ud.offset (ud.size + A.length))
      mv.offset (mv.size + A.length) with hFB
  have hstage2 : Atoms.stemStage buf stemData
      = some ⟨FB, mv.offset, mv.size + A.length, mv.offset + mv.size, (A.length : Int)⟩ := by
    rw [hFB, hA]
    simp only [Atoms.stemStage]
    rw [hm]
    dsimp only
    rw [hu]
  have hst : st = ⟨FB, mv.offset, mv.size + A.length, mv.offset + mv.size,
      (A.length : Int)⟩ := by
    rw [hstage2] at hstage
    exact (Option.some.inj hstage).symm
  subst hst
  simp only at havoid
  have hfb2len : (buf.take (ud.offset + ud.size) ++ A ++ buf.drop (ud.offset + ud.size)).length
      = buf.length + (8 + stemData.length) := by
    rw [length_splice _ _ _ _ hsp, hsAlen]
    omega
  have hfb4len : FB.length = buf.length + (8 + stemData.length) := by
    rw [hFB, length_writeU32, length_writeU32, hfb2len]
  have hfb4at : ∀ q, (q < ud.offset ∨ ud.offset + 4 ≤ q) →
      (q < mv.offset ∨ mv.offset + 4 ≤ q) →
      q < ud.offset + ud.size →
      byteAt FB q = byteAt buf q := by
    intro q hq1 hq2 hq3
    rw [hFB, byteAt_writeU32_outside _ _ _ _ (by omega),
      byteAt_writeU32_outside _ _ _ _ (by omega)]
    exact byteAt_splice_lt _ _ _ _ _ hq3 hsp
  have hfb4stem : ∀ i, i < 8 + stemData.length →
      byteAt FB (ud.offset + ud.size + i) = byteAt A i := by
    intro i hi
    rw [hFB, byteAt_writeU32_outside _ _ _ _ (by omega),
      byteAt_writeU32_outside _ _ _ _ (by omega)]
    exact byteAt_splice_mid _ _ _ _ i (by omega) hsp
  refine ⟨FB.take mv.offset ++
      Atoms.updateChunkOffsetsForStem
        (bufSlice FB mv.offset (mv.offset + (mv.size + A.length)))
        (A.length : Int) (mv.offset + mv.size) ++
      FB.drop (mv.offset +
        (Atoms.updateChunkOffsetsForStem
          (bufSlice FB mv.offset (mv.offset + (mv.size + A.length)))
          (A.length : Int) (mv.offset + mv.size)).length),
    ?_, ?_, ?_, ?_, ?_, ?_⟩
  · rw [Atoms.injectStemAtom, hstage2]
    rfl
  · rw [Atoms.length_spliceBack _ _ _ _ _ (by rw [hfb4len]; omega), hfb4len]
  · apply bufSlice_eq_of_byteAt
    · rw [Atoms.length_spliceBack _ _ _ _ _ (by rw [hfb4len]; omega), hfb4len]
      omega
    · omega
    · rw [hsAlen]
      omega
    · intro i hilt
      rw [hsAlen] at hilt
      have hfr := Atoms.spliceBack_frame FB mv.offset (mv.size + A.length)
        (mv.offset + mv.size) (A.length : Int) (ud.offset + ud.size + i)
        (by rw [hfb4len]; omega)
        (fun en hen => by have := havoid en hen; omega)
      rw [hfr]
      exact hfb4stem i hilt
  · have hfr := Atoms.spliceBack_readBE FB mv.offset (mv.size + A.length)
      (mv.offset + mv.size) (A.length : Int) ud.offset 4
      (by rw [hfb4len]; omega)
      (fun en hen => by have := havoid en hen; omega)
    rw [readU32, hfr, hFB]
    rw [readBE_writeU32_outside _ _ _ _ _ (by omega)]
    have hw := readU32_writeU32
      (buf.take (ud.offset + ud.size) ++ A ++ buf.drop (ud.offset + ud.size)) ud.offset
      (ud.size + A.length)
      (by rw [hfb2len]; omega) (by rw [hsAlen]; omega)
    rw [readU32] at hw
    rw [hw, hsAlen]
  · have hpos := Atoms.searchAtoms_pos_ge (A.length : Int) (mv.offset + mv.size)
    have hfr := Atoms.spliceBack_readBE FB mv.offset (mv.size + A.length)
      (mv.offset + mv.size) (A.length : Int) mv.offset 4
      (by rw [hfb4len]; omega)
      (fun en hen => by
        simp only [Atoms.chunkEntriesRead] at hen
        have h16 := (hpos _ _ _ _ en hen).1
        left
        omega)
    rw [readU32, hfr, hFB]
    have hw := readU32_writeU32
      (writeU32 (buf.take (ud.offset + ud.size) ++ A ++ buf.drop (ud.offset + ud.size))
        ud.offset (ud.size + A.length))
      mv.offset (mv.size + A.length)
      (by rw [length_writeU32, hfb2len]; omega) (by rw [hsAlen]; omega)
    rw [readU32] at hw
    rw [hw, hsAlen]
  · intro q hq1 hq2 hq3 hq4
    have hfr := Atoms.spliceBack_frame FB mv.offset (mv.size + A.length)
      (mv.offset + mv.size) (A.length : Int) q
      (by rw [hfb4len]; omega)
      (fun en hen => hq4 en hen)
    rw [hfr]
    exact hfb4at q hq2 hq3 hq1

theorem claim3_amended_witness :
    ∃ out, Atoms.injectStemAtom stemFileExample (strBytes "NEW") = some out ∧
      out.length = stemFileExample.length + (8 + (strBytes "NEW").length) ∧
      bufSlice out 27 (27 + (8 + (strBytes "NEW").length))
        = u32be (8 + (strBytes "NEW").length) ++ fourcc "stem" ++ strBytes "NEW" ∧
      readU32 out 8 = 19 + (8 + (strBytes "NEW").length) ∧
      readU32 out 0 = 27 + (8 + (strBytes "NEW").length) := by
  obtain ⟨out, h1, h2, h3, h4, h5, _⟩ :=
    claim3_amended_stem_appended stemFileExample (strBytes "NEW")
      ⟨fourcc "moov", 0, 27, 8⟩ ⟨fourcc "udta", 8, 19, 16⟩
      ⟨[0, 0, 0, 38, 109, 111, 111, 118, 0, 0, 0, 30, 117, 100, 116, 97,
        0, 0, 0, 11, 115, 116, 101, 109, 79, 76, 68,
        0, 0, 0, 11, 115, 116, 101, 109, 78, 69, 87], 0, 38, 27, 11⟩
      (by decide) (by decide) (by decide) (by decide) (by decide) (by decide)
      (by decide)
  exact ⟨out, h1, h2, h3, h4, h5⟩

section IlstFieldLemmas

set_option maxHeartbeats 1600000 in
/-- Core of C4: the staged ilst injection splices the new child into the
region [p, r) inside `ilst` and then rewrites the four enclosing size
fields; after the chunk-offset splice-back, each of the `ilst`, `meta`,
`udta` and `moov` declared sizes in the output equals its old value plus
the size delta, and the whole file grows by exactly the delta. -/
theorem Atoms.ilst_fields_spec (buf atomData : Buf) (mv ud me il : MP4Atom)
    (p r : Nat) (d : Int) (fb5 fb6 : Buf) (NM : Nat)
    (hstage : Atoms.ilstStage buf atomData
      = some ⟨writeU32 fb6 mv.offset NM, mv.offset, NM, mv.offset + mv.size, d⟩)
    (hfb5 : fb5 = writeU32 (writeU32 (buf.take p ++ atomData ++ buf.drop r)
        il.offset ((il.size : Int) + d).toNat)
        me.offset ((me.size : Int) + d).toNat)
    (hfb6 : fb6 = writeU32 fb5 ud.offset ((readU32 fb5 ud.offset : Int) + d).toNat)
    (hNM : NM = ((readU32 fb6 mv.offset : Int) + d).toNat)
    (hd : d = (atomData.length : Int) - (r : Int) + (p : Int))
    (hmv8 : mv.offset + 8 ≤ ud.offset)
    (hud8 : ud.offset + 8 ≤ me.offset)
    (hme12 : me.offset + 12 ≤ il.offset)
    (hilp : il.offset + 8 ≤ p)
    (hpr : p ≤ r) (hrb : r ≤ buf.length)
    (hsud : readU32 buf ud.offset = ud.size)
    (hsmv : readU32 buf mv.offset = mv.size)
    (hRil : 0 ≤ (il.size : Int) + d ∧ (il.size : Int) + d < 256 ^ 4)
    (hRme : 0 ≤ (me.size : Int) + d ∧ (me.size : Int) + d < 256 ^ 4)
    (hRud : 0 ≤ (ud.size : Int) + d ∧ (ud.size : Int) + d < 256 ^ 4)
    (hRmv : 0 ≤ (mv.size : Int) + d ∧ (mv.size : Int) + d < 256 ^ 4)
    (havoid : ∀ en ∈ Atoms.chunkEntriesRead
        (bufSlice (writeU32 fb6 mv.offset NM) mv.offset (mv.offset + NM)) d
        (mv.offset + mv.size),
      (il.offset + 4 ≤ mv.offset + en.pos ∨ mv.offset + (en.pos + en.width) ≤ il.offset) ∧
      (me.offset + 4 ≤ mv.offset + en.pos ∨ mv.offset + (en.pos + en.width) ≤ me.offset) ∧
      (ud.offset + 4 ≤ mv.offset + en.pos ∨ mv.offset + (en.pos + en.width) ≤ ud.offset)) :
    ∃ out, Atoms.injectAtomToIlst buf atomData = some out ∧
      (out.length : Int) = (buf.length : Int) + d ∧
      readU32 out il.offset = ((il.size : Int) + d).toNat ∧
      readU32 out me.offset = ((me.size : Int) + d).toNat ∧
      readU32 out ud.offset = ((ud.size : Int) + d).toNat ∧
      readU32 out mv.offset = ((mv.size : Int) + d).toNat := by
  have hfb3len : (buf.take p ++ atomData ++ buf.drop r).length
      = p + atomData.length + (buf.length - r) :=
    length_splice buf atomData p r (by omega)
  have hfb5len : fb5.length = p + atomData.length + (buf.length - r) := by
    rw [hfb5, length_writeU32, length_writeU32, hfb3len]
  have hfb6len : fb6.length = p + atomData.length + (buf.length - r) := by
    rw [hfb6, length_writeU32, hfb5len]
  have hFlen : (writeU32 fb6 mv.offset NM).length
      = p + atomData.length + (buf.length - r) := by
    rw [length_writeU32, hfb6len]
  have hmvle : mv.offset ≤ (writeU32 fb6 mv.offset NM).length := by
    rw [hFlen]; omega
  have hfb3read : ∀ q, q + 4 ≤ p →
      readBE (buf.take p ++ atomData ++ buf.drop r) q 4 = readBE buf q 4 := by
    intro q hqw
    apply readBE_congr
    intro x hx1 hx2
    exact byteAt_splice_lt buf atomData p r x (by omega) (by omega)
  have hr5ud : readU32 fb5 ud.offset = ud.size := by
    rw [hfb5, readU32, readBE_writeU32_outside _ _ _ _ _ (by omega),
      readBE_writeU32_outside _ _ _ _ _ (by omega), hfb3read ud.offset (by omega)]
    rw [readU32] at hsud
    exact hsud
  have hr6mv : readU32 fb6 mv.offset = mv.size := by
    rw [hfb6, readU32, readBE_writeU32_outside _ _ _ _ _ (by omega),
      hfb5, readBE_writeU32_outside _ _ _ _ _ (by omega),
      readBE_writeU32_outside _ _ _ _ _ (by omega), hfb3read mv.offset (by omega)]
    rw [readU32] at hsmv
    exact hsmv
  have hNMval : NM = ((mv.size : Int) + d).toNat := by rw [hNM, hr6mv]
  have hFil : readU32 (writeU32 fb6 mv.offset NM) il.offset
      = ((il.size : Int) + d).toNat := by
    rw [readU32, readBE_writeU32_outside _ _ _ _ _ (by omega),
      hfb6, readBE_writeU32_outside _ _ _ _ _ (by omega),
      hfb5, readBE_writeU32_outside _ _ _ _ _ (by omega)]
    have hw := readU32_writeU32 (buf.take p ++ atomData ++ buf.drop r) il.offset
      ((il.size : Int) + d).toNat (by rw [hfb3len]; omega) (by omega)
    rw [readU32] at hw
    exact hw
  have hFme : readU32 (writeU32 fb6 mv.offset NM) me.offset
      = ((me.size : Int) + d).toNat := by
    rw [readU32, readBE_writeU32_outside _ _ _ _ _ (by omega),
      hfb6, readBE_writeU32_outside _ _ _ _ _ (by omega), hfb5]
    have hw := readU32_writeU32
      (writeU32 (buf.take p ++ atomData ++ buf.drop r) il.offset
        ((il.size : Int) + d).toNat)
      me.offset ((me.size : Int) + d).toNat
      (by rw [length_writeU32, hfb3len]; omega) (by omega)
    rw [readU32] at hw
    exact hw
  have hFud : readU32 (writeU32 fb6 mv.offset NM) ud.offset
      = ((ud.size : Int) + d).toNat := by
    rw [readU32, readBE_writeU32_outside _ _ _ _ _ (by omega), hfb6, hr5ud]
    have hw := readU32_writeU32 fb5 ud.offset ((ud.size : Int) + d).toNat
      (by rw [hfb5len]; omega) (by omega)
    rw [readU32] at hw
    exact hw
  have hFmv : readU32 (writeU32 fb6 mv.offset NM) mv.offset
      = ((mv.size : Int) + d).toNat := by
    rw [readU32]
    have hw := readU32_writeU32 fb6 mv.offset NM
      (by rw [hfb6len]; omega) (by rw [hNMval]; omega)
    rw [readU32] at hw
    rw [hw, hNMval]
  refine ⟨(writeU32 fb6 mv.offset NM).take mv.offset ++
      Atoms.updateChunkOffsetsForStem
        (bufSlice (writeU32 fb6 mv.offset NM) mv.offset (mv.offset + NM))
        d (mv.offset + mv.size) ++
      (writeU32 fb6 mv.offset NM).drop (mv.offset +
        (Atoms.updateChunkOffsetsForStem
          (bufSlice (writeU32 fb6 mv.offset NM) mv.offset (mv.offset + NM))
          d (mv.offset + mv.size)).length),
    ?_, ?_, ?_, ?_, ?_, ?_⟩
  · rw [Atoms.injectAtomToIlst, hstage]
    rfl
  · rw [Atoms.length_spliceBack _ _ _ _ _ hmvle, hFlen, hd]
    omega
  · have hfr := Atoms.spliceBack_readBE (writeU32 fb6 mv.offset NM) mv.offset NM
      (mv.offset + mv.size) d il.offset 4 hmvle
      (fun en hen => by have h3 := (havoid en hen).1; omega)
    rw [readU32, hfr]
    rw [readU32] at hFil
    exact hFil
  · have hfr := Atoms.spliceBack_readBE (writeU32 fb6 mv.offset NM) mv.offset NM
      (mv.offset + mv.size) d me.offset 4 hmvle
      (fun en hen => by have h3 := (havoid en hen).2.1; omega)
    rw [readU32, hfr]
    rw [readU32] at hFme
    exact hFme
  · have hfr := Atoms.spliceBack_readBE (writeU32 fb6 mv.offset NM) mv.offset NM
      (mv.offset + mv.size) d ud.offset 4 hmvle
      (fun en hen => by have h3 := (havoid en hen).2.2; omega)
    rw [readU32, hfr]
    rw [readU32] at hFud
    exact hFud
  · have hpos := Atoms.searchAtoms_pos_ge d (mv.offset + mv.size)
    have hfr := Atoms.spliceBack_readBE (writeU32 fb6 mv.offset NM) mv.offset NM
      (mv.offset + mv.size) d mv.offset 4 hmvle
      (fun en hen => by
        simp only [Atoms.chunkEntriesRead] at hen
        have h16 := (hpos _ _ _ _ en hen).1
        left
        omega)
    rw [readU32, hfr]
    rw [readU32] at hFmv
    exact hFmv

end IlstFieldLemmas

set_option maxHeartbeats 1000000 in
/-- C4: when the `moov`/`udta`/`meta`/`ilst` chain exists, an ilst
injection (`injectAtomToIlst`) that changes the spliced descendant
region by `sizeDelta` rewrites the four enclosing 32-bit size fields:
in the output, the declared sizes of `ilst`, `meta`, `udta` and `moov`
each equal their previous values plus the delta, and the file length
changes by exactly the delta. -/
theorem claim4_enclosing_sizes_bumped (buf atomData : Buf) (mv ud me il : MP4Atom)
    (st : Atoms.MutStage)
    (hm : (Atoms.parseMP4Atoms buf 0 none).find? (fun a => a.type = fourcc "moov") = some mv)
    (hu : (Atoms.parseMP4Atoms buf mv.dataOffset (some (mv.size - 8))).find?
        (fun a => a.type = fourcc "udta") = some ud)
    (hme : (Atoms.parseMP4Atoms buf (ud.offset + 8) (some (ud.size - 8))).find?
        (fun a => a.type = fourcc "meta") = some me)
    (hil : (Atoms.parseMP4Atoms buf (me.offset + 12) (some (me.size - 12))).find?
        (fun a => a.type = fourcc "ilst") = some il)
    (hstage : Atoms.ilstStage buf atomData = some st)
    (hil8 : 8 ≤ il.size)
    (hRil : 0 ≤ (il.size : Int) + st.sizeDelta ∧ (il.size : Int) + st.sizeDelta < 256 ^ 4)
    (hRme : 0 ≤ (me.size : Int) + st.sizeDelta ∧ (me.size : Int) + st.sizeDelta < 256 ^ 4)
    (hRud : 0 ≤ (ud.size : Int) + st.sizeDelta ∧ (ud.size : Int) + st.sizeDelta < 256 ^ 4)
    (hRmv : 0 ≤ (mv.size : Int) + st.sizeDelta ∧ (mv.size : Int) + st.sizeDelta < 256 ^ 4)
    (havoid : ∀ en ∈ Atoms.chunkEntriesRead
        (bufSlice st.fb st.moovOffset (st.moovOffset + st.newMoovSize))
        st.sizeDelta st.origMoovEnd,
      (il.offset + 4 ≤ mv.offset + en.pos ∨ mv.offset + (en.pos + en.width) ≤ il.offset) ∧
      (me.offset + 4 ≤ mv.offset + en.pos ∨ mv.offset + (en.pos + en.width) ≤ me.offset) ∧
      (ud.offset + 4 ≤ mv.offset + en.pos ∨ mv.offset + (en.pos + en.width) ≤ ud.offset)) :
    ∃ out, Atoms.injectAtomToIlst buf atomData = some out ∧
      (out.length : Int) = (buf.length : Int) + st.sizeDelta ∧
      readU32 out il.offset = ((il.size : Int) + st.sizeDelta).toNat ∧
      readU32 out me.offset = ((me.size : Int) + st.sizeDelta).toNat ∧
      readU32 out ud.offset = ((ud.size : Int) + st.sizeDelta).toNat ∧
      readU32 out mv.offset = ((mv.size : Int) + st.sizeDelta).toNat := by
  have hstage0 := hstage
  have hmvmem := List.mem_of_find?_eq_some hm
  have hudmem := List.mem_of_find?_eq_some hu
  have hmemem := List.mem_of_find?_eq_some hme
  have hilmem := List.mem_of_find?_eq_some hil
  have hudb := Atoms.parseMP4Atoms_bounds buf mv.dataOffset (some (mv.size - 8)) ud hudmem
  have hmeb := Atoms.parseMP4Atoms_bounds buf (ud.offset + 8) (some (ud.size - 8)) me hmemem
  have hilb := Atoms.parseMP4Atoms_bounds buf (me.offset + 12) (some (me.size - 12)) il hilmem
  have hdo : mv.dataOffset = mv.offset + 8 :=
    (Atoms.parseMP4Atoms_sound buf 0 none mv hmvmem).2.2
  have hmv8 : mv.offset + 8 ≤ ud.offset := by
    have := hudb.1
    omega
  have hsud : readU32 buf ud.offset = ud.size :=
    (Atoms.parseMP4Atoms_sound buf mv.dataOffset (some (mv.size - 8)) ud hudmem).1.symm
  have hsmv : readU32 buf mv.offset = mv.size :=
    (Atoms.parseMP4Atoms_sound buf 0 none mv hmvmem).1.symm
  simp only [Atoms.ilstStage, hm, hu, hme, hil] at hstage
  split at hstage
  · rename_i x ex heq
    dsimp only at hstage
    have hSt := Option.some.inj hstage
    subst hSt
    dsimp only at hRil hRme hRud hRmv havoid ⊢
    have hexmem : ex ∈ Atoms.parseMP4Atoms buf (il.offset + 8) (some (il.size - 8)) := by
      split at heq
      · exact List.mem_of_find?_eq_some heq
      · exact List.mem_of_find?_eq_some heq
    have hexb := Atoms.parseMP4Atoms_bounds buf (il.offset + 8) (some (il.size - 8)) ex hexmem
    exact Atoms.ilst_fields_spec buf atomData mv ud me il ex.offset (ex.offset + ex.size)
      ((atomData.length : Int) - (ex.size : Int)) _ _ _ hstage0 rfl rfl rfl
      (by push_cast; ring) hmv8 hmeb.1 hilb.1 hexb.1 (by omega)
      (by have := hexb.2.2; omega) hsud hsmv hRil hRme hRud hRmv havoid
  · rename_i x heq
    dsimp only at hstage
    have hSt := Option.some.inj hstage
    subst hSt
    dsimp only at hRil hRme hRud hRmv havoid ⊢
    exact Atoms.ilst_fields_spec buf atomData mv ud me il (il.offset + il.size)
      (il.offset + il.size) ((atomData.length : Int)) _ _ _ hstage0 rfl rfl rfl
      (by push_cast; ring) hmv8 hmeb.1 hilb.1 (by omega) (by omega)
      (by have := hilb.2.2; omega) hsud hsmv hRil hRme hRud hRmv havoid

/-- Example file for C4: a moov whose udta holds the meta/ilst chain. -/
def c4FileExample : Buf := Atoms.createAtom "moov" (Atoms.createAtom "udta" metaExample)

set_option maxRecDepth 8192 in
theorem claim4_witness :
    ∃ out, Atoms.injectAtomToIlst c4FileExample karaExample = some out ∧
      (out.length : Int) = (c4FileExample.length : Int) + (62 : Int) ∧
      readU32 out 28 = ((70 : Int) + (62 : Int)).toNat ∧
      readU32 out 16 = ((82 : Int) + (62 : Int)).toNat ∧
      readU32 out 8 = ((90 : Int) + (62 : Int)).toNat ∧
      readU32 out 0 = ((98 : Int) + (62 : Int)).toNat :=
  claim4_enclosing_sizes_bumped c4FileExample karaExample
    ⟨fourcc "moov", 0, 98, 8⟩ ⟨fourcc "udta", 8, 90, 16⟩
    ⟨fourcc "meta", 16, 82, 24⟩ ⟨fourcc "ilst", 28, 70, 36⟩
    ⟨[0, 0, 0, 160, 109, 111, 111, 118, 0, 0, 0, 152, 117, 100, 116, 97, 0, 0, 0, 144,
      109, 101, 116, 97, 0, 0, 0, 0, 0, 0, 0, 132, 105, 108, 115, 116, 0, 0, 0, 62,
      45, 45, 45, 45, 0, 0, 0, 21, 109, 101, 97, 110, 0, 0, 0, 0, 99, 111, 109, 46,
      115, 116, 101, 109, 115, 0, 0, 0, 16, 110, 97, 109, 101, 0, 0, 0, 0, 118, 112,
      99, 104, 0, 0, 0, 17, 100, 97, 116, 97, 0, 0, 0, 0, 0, 0, 0, 0, 1, 0, 0, 0, 62,
      45, 45, 45, 45, 0, 0, 0, 21, 109, 101, 97, 110, 0, 0, 0, 0, 99, 111, 109, 46,
      115, 116, 101, 109, 115, 0, 0, 0, 16, 110, 97, 109, 101, 0, 0, 0, 0, 107, 97,
      114, 97, 0, 0, 0, 17, 100, 97, 116, 97, 0, 0, 0, 1, 0, 0, 0, 0, 107], 0, 160, 98, 62⟩
    (by decide) (by decide) (by decide) (by decide) (by decide) (by decide)
    (by decide) (by decide) (by decide) (by decide) (by decide)

namespace Extractor

/-- `{ sampleCount, sampleDelta }` stts entry as consumed by `buildM4aFile`. -/
structure SttsEntry where
  sampleCount : Nat
  sampleDelta : Nat
deriving Repr, DecidableEq

/-- Parsed stsz data `{ defaultSize, sampleCount, sizes }`; `sizes` is
`none` exactly when the source stores `null` (fixed-size samples). -/
structure StszInfo where
  defaultSize : Nat
  sampleCount : Nat
  sizes : Option (List Nat)
deriving Repr, DecidableEq

/-- Parsed mdhd data (the fields `buildM4aFile` uses). -/
structure MdhdInfo where
  timescale : Nat
  duration : Nat
deriving Repr, DecidableEq

/-- The `trackInfo` record passed to `buildM4aFile`. -/
structure TrackInfo where
  audioData : Buf
  stsd : Buf
  sampleSizes : StszInfo
  sttsEntries : List SttsEntry
  mdhd : MdhdInfo
deriving Repr, DecidableEq

/-- The fixed ftyp payload of `buildM4aFile` (src/extractor.js 299-305). -/
def ftypData : Buf :=
  [0x4d, 0x34, 0x41, 0x20, 0, 0, 0, 0, 0x4d, 0x34, 0x41, 0x20,
   0x6d, 0x70, 0x34, 0x32, 0x69, 0x73, 0x6f, 0x6d]

def buildFtyp : Buf := createAtom "ftyp" ftypData

/-- stts built from the entries (src/extractor.js 309-316). -/
def buildStts (entries : List SttsEntry) : Buf :=
  createAtom "stts" (u32be 0 ++ u32be entries.length ++
    (entries.map (fun e => u32be e.sampleCount ++ u32be e.sampleDelta)).flatten)

/-- stsc: all samples in one chunk (src/extractor.js 319-325). -/
def buildStsc (sampleCount : Nat) : Buf :=
  createAtom "stsc" (u32be 0 ++ u32be 1 ++ u32be 1 ++ u32be sampleCount ++ u32be 1)

/-- stsz: fixed-size or explicit table (src/extractor.js 328-346).
`sizes` is consulted only when `defaultSize = 0`, where every record
`parseStsz` produces carries the list. -/
def buildStsz (s : StszInfo) : Buf :=
  if 0 < s.defaultSize then
    createAtom "stsz" (u32be 0 ++ u32be s.defaultSize ++ u32be s.sampleCount)
  else
    createAtom "stsz" (u32be 0 ++ u32be 0 ++ u32be (s.sizes.getD []).length ++
      ((s.sizes.getD []).map u32be).flatten)

/-- stco placeholder: one entry, still zero (src/extractor.js 349-353). -/
def buildStco : Buf := createAtom "stco" (u32be 0 ++ u32be 1 ++ u32be 0)

def buildStbl (ti : TrackInfo) : Buf :=
  createAtom "stbl" (ti.stsd ++ buildStts ti.sttsEntries ++
    buildStsc ti.sampleSizes.sampleCount ++ buildStsz ti.sampleSizes ++ buildStco)

def drefData : Buf :=
  [0, 0, 0, 0, 0, 0, 0, 1, 0, 0, 0, 0x0c, 0x75, 0x72, 0x6c, 0x20, 0, 0, 0, 1]

def buildDinf : Buf := createAtom "dinf" (createAtom "dref" drefData)

def buildSmhd : Buf := createAtom "smhd" [0, 0, 0, 0, 0, 0, 0, 0]

def buildMinf (ti : TrackInfo) : Buf :=
  createAtom "minf" (buildSmhd ++ buildDinf ++ buildStbl ti)

/-- hdlr payload with handler type soun (src/extractor.js 381-389). -/
def hdlrSoun : Buf :=
  [0, 0, 0, 0, 0, 0, 0, 0, 0x73, 0x6f, 0x75, 0x6e,
   0, 0, 0, 0, 0, 0, 0, 0, 0, 0, 0, 0, 0]

def buildHdlr : Buf := createAtom "hdlr" hdlrSoun

/-- mdhd rebuilt from timescale and duration (src/extractor.js 393-401). -/
def buildMdhd (m : MdhdInfo) : Buf :=
  createAtom "mdhd" (u32be 0 ++ u32be 0 ++ u32be 0 ++ u32be m.timescale ++
    u32be m.duration ++ [0x55, 0xc4, 0, 0])

def buildMdia (ti : TrackInfo) : Buf :=
  createAtom "mdia" (buildMdhd ti.mdhd ++ buildHdlr ++ buildMinf ti)

/-- tkhd: 84 zero bytes with the flag, track id, duration and volume
writes of src/extractor.js 407-418. -/
def buildTkhd (m : MdhdInfo) : Buf :=
  createAtom "tkhd"
    (writeU32 (writeU32 (writeU32
      (((((List.replicate 84 0).set 0 0).set 1 0).set 2 0).set 3 7)
      12 1) 20 m.duration) 76 0x00010000)

def buildTrak (ti : TrackInfo) : Buf :=
  createAtom "trak" (buildTkhd ti.mdhd ++ buildMdia ti)

/-- mvhd: 100 zero bytes with the writes of src/extractor.js 424-437. -/
def buildMvhd (m : MdhdInfo) : Buf :=
  createAtom "mvhd"
    (writeU32 (writeU32 (writeU32 (writeU32
      (writeBE (writeU32 (writeU32 (writeU32 (writeU32
        (List.replicate 100 0)
        0 0) 12 m.timescale) 16 m.duration) 20 0x00010000)
      24 2 0x0100)
      36 0x00010000) 52 0x00010000) 68 0x40000000) 96 2)

def buildMoov (ti : TrackInfo) : Buf :=
  createAtom "moov" (buildMvhd ti.mdhd ++ buildTrak ti)

/-- `buildM4aFile(trackInfo)` (src/extractor.js 295-450): assemble
ftyp, moov and mdat, then patch the single stco entry in place with
`ftyp.length + moov.length + 8` at offset
`moov.length - stco.length + 8 + 8` inside moov. -/
def buildM4aFile (ti : TrackInfo) : Buf :=
  let ftyp := buildFtyp
  let moov := buildMoov ti
  let mdat := createAtom "mdat" ti.audioData
  let chunkOffset := ftyp.length + moov.length + 8
  let moov2 := writeU32 moov (moov.length - buildStco.length + 8 + 8) chunkOffset
  ftyp ++ moov2 ++ mdat

end Extractor

section WriteAppendLemmas

theorem set_append_right (b2 : Buf) (x : Nat) :
    ∀ (b1 : Buf) (i : Nat), b1.length ≤ i →
      (b1 ++ b2).set i x = b1 ++ b2.set (i - b1.length) x := by
  intro b1
  induction b1 with
  | nil => intro i h; simp
  | cons a t ih =>
    intro i h
    cases i with
    | zero => simp at h
    | succ j =>
      simp only [List.cons_append, List.set_cons_succ, List.length_cons]
      have hidx : j + 1 - (t.length + 1) = j - t.length := by omega
      rw [ih j (by simp at h; omega), hidx]

theorem writeBE_append_right (b1 : Buf) :
    ∀ (w pos v : Nat) (b2 : Buf), b1.length ≤ pos →
      writeBE (b1 ++ b2) pos w v = b1 ++ writeBE b2 (pos - b1.length) w v := by
  intro w
  induction w with
  | zero => intro pos v b2 h; rfl
  | succ n ih =>
    intro pos v b2 h
    rw [writeBE, set_append_right b2 (v % 256) b1 (pos + n) (by omega),
      ih pos (v / 256) _ h]
    rw [writeBE]
    have hidx : pos + n - b1.length = pos - b1.length + n := by omega
    rw [hidx]

theorem writeBE_prefix :
    ∀ (w : Nat) (v : Nat) (b1 b2 : Buf), b1.length = w →
      writeBE (b1 ++ b2) 0 w v = beBytes w v ++ b2 := by
  intro w
  induction w with
  | zero =>
    intro v b1 b2 h
    rw [List.eq_nil_of_length_eq_zero h]
    rfl
  | succ n ih =>
    intro v b1 b2 h
    rw [writeBE]
    have hset : (b1 ++ b2).set (0 + n) (v % 256)
        = b1.take n ++ ([v % 256] ++ b2) := by
      rw [List.set_eq_take_append_cons_drop, if_pos (by simp; omega)]
      rw [List.take_append_of_le_length (by omega)]
      rw [List.drop_append_of_le_length (by omega)]
      have hnil : b1.drop (0 + n + 1) = [] := by
        apply List.drop_eq_nil_of_le
        omega
      rw [hnil]
      simp
    rw [hset, ih (v / 256) (b1.take n) ([v % 256] ++ b2) (by simp; omega)]
    rw [beBytes]
    simp

theorem writeBE_full (b : Buf) (w v : Nat) (h : b.length = w) :
    writeBE b 0 w v = beBytes w v := by
  have hx := writeBE_prefix w v b [] h
  simpa using hx

end WriteAppendLemmas

section BuildLemmas

theorem Extractor.suffix_createAtom (t : String) (d : Buf) :
    d <:+ Extractor.createAtom t d := by
  rw [Extractor.createAtom]
  exact List.suffix_append _ _

theorem bufSlice_append_suffix (C a : Buf) :
    bufSlice (C ++ a) C.length (C ++ a).length = a := by
  rw [bufSlice, List.drop_left]
  have h : (C ++ a).length - C.length = a.length := by simp
  rw [h, List.take_length]

theorem Extractor.length_createAtom_ex (t : String) (d : Buf) :
    (Extractor.createAtom t d).length = 4 + (fourcc t).length + d.length := by
  simp [Extractor.createAtom, length_u32be]
  omega

theorem Extractor.stco_suffix_moov (ti : Extractor.TrackInfo) :
    Extractor.buildStco <:+ Extractor.buildMoov ti := by
  have h1 : Extractor.buildStco <:+ Extractor.buildStbl ti := by
    rw [Extractor.buildStbl]
    exact (List.suffix_append _ _).trans (Extractor.suffix_createAtom _ _)
  have h2 : Extractor.buildStbl ti <:+ Extractor.buildMinf ti := by
    rw [Extractor.buildMinf]
    exact (List.suffix_append _ _).trans (Extractor.suffix_createAtom _ _)
  have h3 : Extractor.buildMinf ti <:+ Extractor.buildMdia ti := by
    rw [Extractor.buildMdia]
    exact (List.suffix_append _ _).trans (Extractor.suffix_createAtom _ _)
  have h4 : Extractor.buildMdia ti <:+ Extractor.buildTrak ti := by
    rw [Extractor.buildTrak]
    exact (List.suffix_append _ _).trans (Extractor.suffix_createAtom _ _)
  have h5 : Extractor.buildTrak ti <:+ Extractor.buildMoov ti := by
    rw [Extractor.buildMoov]
    exact (List.suffix_append _ _).trans (Extractor.suffix_createAtom _ _)
  exact (((h1.trans h2).trans h3).trans h4).trans h5

theorem Extractor.length_buildMoov_ge (ti : Extractor.TrackInfo) :
    20 ≤ (Extractor.buildMoov ti).length := by
  obtain ⟨P, hP⟩ := Extractor.stco_suffix_moov ti
  have h20 : Extractor.buildStco.length = 20 := by decide
  rw [← hP]
  simp [h20]

end BuildLemmas

set_option maxHeartbeats 1000000 in
/-- C6: the file emitted by `buildM4aFile` patches its single stco
entry to `ftyp.length + moov.length + 8`; the last 20 bytes of the moov
region are a well-formed one-entry stco holding exactly that value, and
that value is the absolute offset of the first mdat payload byte: the
emitted file from that offset onwards is exactly the audio data. -/
theorem claim6_stco_points_at_mdat (ti : Extractor.TrackInfo)
    (hco : Extractor.buildFtyp.length + (Extractor.buildMoov ti).length + 8 < 256 ^ 4) :
    readU32 (Extractor.buildM4aFile ti)
        (Extractor.buildFtyp.length +
          ((Extractor.buildMoov ti).length - Extractor.buildStco.length + 8 + 8))
      = Extractor.buildFtyp.length + (Extractor.buildMoov ti).length + 8 ∧
    bufSlice (Extractor.buildM4aFile ti)
        (Extractor.buildFtyp.length +
          ((Extractor.buildMoov ti).length - Extractor.buildStco.length))
        (Extractor.buildFtyp.length + (Extractor.buildMoov ti).length)
      = u32be 20 ++ fourcc "stco" ++ u32be 0 ++ u32be 1 ++
          u32be (Extractor.buildFtyp.length + (Extractor.buildMoov ti).length + 8) ∧
    bufSlice (Extractor.buildM4aFile ti)
        (Extractor.buildFtyp.length + (Extractor.buildMoov ti).length + 8)
        (Extractor.buildM4aFile ti).length
      = ti.audioData := by
  have hft : Extractor.buildFtyp.length = 28 := by decide
  have hsc : Extractor.buildStco.length = 20 := by decide
  have hf4s : (fourcc "stco").length = 4 := by decide
  have hf4m : (fourcc "mdat").length = 4 := by decide
  have hm20 := Extractor.length_buildMoov_ge ti
  obtain ⟨P, hP⟩ := Extractor.stco_suffix_moov ti
  have hPlen : P.length + 20 = (Extractor.buildMoov ti).length := by
    rw [← hP]
    simp [hsc]
  simp only [Extractor.buildM4aFile]
  set M := Extractor.buildMoov ti with hM
  set W := M.length - Extractor.buildStco.length + 8 + 8 with hWdef
  set V := Extractor.buildFtyp.length + M.length + 8 with hVdef
  set F2 := writeU32 M W V with hF2
  have hF2len : F2.length = M.length := by rw [hF2, length_writeU32]
  have hW4 : W + 4 ≤ M.length := by omega
  refine ⟨?_, ?_, ?_⟩
  · rw [readU32]
    have h1 : Extractor.buildFtyp.length + W + 4
        ≤ (Extractor.buildFtyp ++ F2).length := by
      simp [hft, hF2len]
      omega
    rw [readBE_append_left h1, readBE_append_right (Nat.le_add_right _ _)]
    have h2 : Extractor.buildFtyp.length + W - Extractor.buildFtyp.length = W := by
      omega
    rw [h2, hF2]
    have hw := readU32_writeU32 M W V hW4 hco
    rw [readU32] at hw
    exact hw
  · have hlo : Extractor.buildFtyp.length + (M.length - Extractor.buildStco.length)
        = 28 + P.length := by omega
    have hhi : Extractor.buildFtyp.length + M.length = 28 + P.length + 20 := by omega
    rw [hlo, hhi]
    have hsplit : Extractor.buildStco
        = u32be 20 ++ fourcc "stco" ++ u32be 0 ++ u32be 1 ++ u32be 0 := by decide
    have hWP : W = P.length + 16 := by omega
    have hF2P : F2 = P ++ (u32be 20 ++ fourcc "stco" ++ u32be 0 ++ u32be 1 ++ u32be V) := by
      rw [hF2, writeU32, ← hP, hWP]
      rw [writeBE_append_right P 4 (P.length + 16) V Extractor.buildStco (by omega)]
      have hi16 : P.length + 16 - P.length = 16 := by omega
      rw [hi16, hsplit]
      rw [writeBE_append_right (u32be 20 ++ fourcc "stco" ++ u32be 0 ++ u32be 1) 4 16 V
        (u32be 0) (by decide)]
      have h0 : 16 - (u32be 20 ++ fourcc "stco" ++ u32be 0 ++ u32be 1).length = 0 := by
        decide
      rw [h0, writeBE_full (u32be 0) 4 V (by decide)]
      rfl
    have hsl : (u32be 20 ++ fourcc "stco" ++ u32be 0 ++ u32be 1 ++ u32be V).length = 20 := by
      simp [length_u32be, hf4s]
    rw [hF2P]
    apply bufSlice_eq_of_byteAt
    · simp [hft, length_u32be, hf4s, hf4m, Extractor.length_createAtom_ex]
      omega
    · omega
    · rw [hsl]
      omega
    · intro i hi
      rw [hsl] at hi
      have hb1 : 28 + P.length + i
          < (Extractor.buildFtyp ++
              (P ++ (u32be 20 ++ fourcc "stco" ++ u32be 0 ++ u32be 1 ++ u32be V))).length := by
        simp [hft, length_u32be, hf4s]
        omega
      rw [byteAt_append_left hb1]
      rw [byteAt_append_right (by rw [hft]; omega)]
      have h3 : 28 + P.length + i - Extractor.buildFtyp.length = P.length + i := by omega
      rw [h3, byteAt_append_right (Nat.le_add_right _ _)]
      have h4 : P.length + i - P.length = i := by omega
      rw [h4]
  · rw [Extractor.createAtom, ← List.append_assoc]
    have hClen : ((Extractor.buildFtyp ++ F2) ++
        (u32be (8 + ti.audioData.length) ++ fourcc "mdat")).length = V := by
      simp [hft, hF2len, length_u32be, hf4m]
      omega
    rw [← hClen]
    exact bufSlice_append_suffix _ _

/-- Concrete track input for exercising `buildM4aFile`. -/
def c6TrackExample : Extractor.TrackInfo :=
  ⟨[9, 9, 9], [], ⟨1, 3, none⟩, [⟨3, 1024⟩], ⟨44100, 3072⟩⟩

set_option maxRecDepth 4096 in
theorem claim6_witness :
    readU32 (Extractor.buildM4aFile c6TrackExample)
        (Extractor.buildFtyp.length +
          ((Extractor.buildMoov c6TrackExample).length - Extractor.buildStco.length + 8 + 8))
      = Extractor.buildFtyp.length + (Extractor.buildMoov c6TrackExample).length + 8 ∧
    bufSlice (Extractor.buildM4aFile c6TrackExample)
        (Extractor.buildFtyp.length +
          ((Extractor.buildMoov c6TrackExample).length - Extractor.buildStco.length))
        (Extractor.buildFtyp.length + (Extractor.buildMoov c6TrackExample).length)
      = u32be 20 ++ fourcc "stco" ++ u32be 0 ++ u32be 1 ++
          u32be (Extractor.buildFtyp.length + (Extractor.buildMoov c6TrackExample).length + 8) ∧
    bufSlice (Extractor.buildM4aFile c6TrackExample)
        (Extractor.buildFtyp.length + (Extractor.buildMoov c6TrackExample).length + 8)
        (Extractor.buildM4aFile c6TrackExample).length
      = c6TrackExample.audioData :=
  claim6_stco_points_at_mdat c6TrackExample (by decide)

namespace Extractor

/-- `buffer.readUInt32BE(pos)`: throws (none) when the read passes the
end of the buffer. -/
def readUInt32BE (buf : Buf) (pos : Nat) : Option Nat :=
  if pos + 4 ≤ buf.length then some (readBE buf pos 4) else none

/-- `Number(buffer.readBigUInt64BE(pos))` (exact below 2 ^ 53). -/
def readBigUInt64BE (buf : Buf) (pos : Nat) : Option Nat :=
  if pos + 8 ≤ buf.length then some (readBE buf pos 8) else none

/-- `buffer.readUInt8(pos)`. -/
def readUInt8 (buf : Buf) (pos : Nat) : Option Nat :=
  if pos + 1 ≤ buf.length then some (byteAt buf pos) else none

/-- `parseStco` (src/extractor.js 58-69). -/
def parseStco (buffer : Buf) (atom : MP4Atom) : Option (List Nat) :=
  (readUInt32BE buffer (atom.dataOffset + 4)).bind (fun entryCount =>
    (List.range entryCount).mapM (fun i =>
      readUInt32BE buffer (atom.dataOffset + 8 + i * 4)))

/-- `parseCo64` (src/extractor.js 77-87). -/
def parseCo64 (buffer : Buf) (atom : MP4Atom) : Option (List Nat) :=
  (readUInt32BE buffer (atom.dataOffset + 4)).bind (fun entryCount =>
    (List.range entryCount).mapM (fun i =>
      readBigUInt64BE buffer (atom.dataOffset + 8 + i * 8)))

/-- `parseStsz` (src/extractor.js 95-113). -/
def parseStsz (buffer : Buf) (atom : MP4Atom) : Option StszInfo :=
  (readUInt32BE buffer (atom.dataOffset + 4)).bind (fun defaultSize =>
    (readUInt32BE buffer (atom.dataOffset + 8)).bind (fun sampleCount =>
      if 0 < defaultSize then some ⟨defaultSize, sampleCount, none⟩
      else ((List.range sampleCount).mapM (fun i =>
          readUInt32BE buffer (atom.dataOffset + 12 + i * 4))).map
        (fun sizes => ⟨0, sampleCount, some sizes⟩)))

/-- `parseStsc` (src/extractor.js 121-136). -/
def parseStsc (buffer : Buf) (atom : MP4Atom) : Option (List StscEntry) :=
  (readUInt32BE buffer (atom.dataOffset + 4)).bind (fun entryCount =>
    (List.range entryCount).mapM (fun i =>
      (readUInt32BE buffer (atom.dataOffset + 8 + i * 12)).bind (fun fc =>
        (readUInt32BE buffer (atom.dataOffset + 8 + i * 12 + 4)).bind (fun spc =>
          (readUInt32BE buffer (atom.dataOffset + 8 + i * 12 + 8)).map (fun sdi =>
            ⟨fc, spc, sdi⟩)))))

/-- `parseStsd` (src/extractor.js 144-147): the raw stsd atom bytes. -/
def parseStsd (buffer : Buf) (atom : MP4Atom) : Buf :=
  bufSlice buffer atom.offset (atom.offset + atom.size)

/-- `parseStts` (src/extractor.js 155-168). -/
def parseStts (buffer : Buf) (atom : MP4Atom) : Option (List SttsEntry) :=
  (readUInt32BE buffer (atom.dataOffset + 4)).bind (fun entryCount =>
    (List.range entryCount).mapM (fun i =>
      (readUInt32BE buffer (atom.dataOffset + 8 + i * 8)).bind (fun sc =>
        (readUInt32BE buffer (atom.dataOffset + 8 + i * 8 + 4)).map (fun sd =>
          ⟨sc, sd⟩))))

/-- `parseMdhd` (src/extractor.js 176-192). -/
def parseMdhd (buffer : Buf) (atom : MP4Atom) : Option MdhdInfo :=
  (readUInt8 buffer atom.dataOffset).bind (fun version =>
    if version = 0 then
      (readUInt32BE buffer (atom.dataOffset + 12)).bind (fun ts =>
        (readUInt32BE buffer (atom.dataOffset + 16)).map (fun du => ⟨ts, du⟩))
    else
      (readUInt32BE buffer (atom.dataOffset + 20)).bind (fun ts =>
        (readBigUInt64BE buffer (atom.dataOffset + 24)).map (fun du => ⟨ts, du⟩)))

/-- The record `parseSampleTableFromTrak` returns. -/
structure SampleTable where
  chunkOffsets : List Nat
  sampleSizes : StszInfo
  stscEntries : List StscEntry
  stsd : Buf
  sttsEntries : List SttsEntry
  mdhd : MdhdInfo
deriving Repr, DecidableEq

/-- `parseSampleTableFromTrak` (src/extractor.js 477-520); every
`throw` becomes `none`. -/
def parseSampleTableFromTrak (buffer : Buf) (trak : MP4Atom) : Option SampleTable :=
  let trakChildren := parseAtoms buffer trak.dataOffset (some (trak.size - 8))
  match findAtom trakChildren "mdia" with
  | none => none
  | some mdia =>
    let mdiaChildren := parseAtoms buffer mdia.dataOffset (some (mdia.size - 8))
    match findAtom mdiaChildren "minf", findAtom mdiaChildren "mdhd" with
    | some minf, some mdhd =>
      let minfChildren := parseAtoms buffer minf.dataOffset (some (minf.size - 8))
      match findAtom minfChildren "stbl" with
      | none => none
      | some stbl =>
        let stblChildren := parseAtoms buffer stbl.dataOffset (some (stbl.size - 8))
        let stcoAtom := findAtom stblChildren "stco"
        let co64Atom := findAtom stblChildren "co64"
        match findAtom stblChildren "stsz", findAtom stblChildren "stsc",
            findAtom stblChildren "stsd" with
        | some stszAtom, some stscAtom, some stsdAtom =>
          (match stcoAtom, co64Atom with
            | some st, _ => parseStco buffer st
            | none, some c6 => parseCo64 buffer c6
            | none, none => none).bind (fun chunkOffsets =>
          (parseStsz buffer stszAtom).bind (fun sampleSizes =>
          (parseStsc buffer stscAtom).bind (fun stscEntries =>
          (match findAtom stblChildren "stts" with
            | some sttsAtom => parseStts buffer sttsAtom
            | none => some [⟨1, 1⟩]).bind (fun sttsEntries =>
          (parseMdhd buffer mdhd).map (fun md =>
            ⟨chunkOffsets, sampleSizes, stscEntries,
             parseStsd buffer stsdAtom, sttsEntries, md⟩)))))
        | _, _, _ => none
    | _, _ => none

/-- `fileBuffer.copy(target, targetStart, sourceStart, sourceEnd)`:
clamped copy, target keeps its length. -/
def bufCopy (target : Buf) (tStart : Nat) (src : Buf) (sStart sEnd : Nat) : Buf :=
  let n := min (min sEnd src.length - sStart) (target.length - tStart)
  target.take tStart ++ bufSlice src sStart (sStart + n) ++ target.drop (tStart + n)

/-- Inner sample loop of `extractAudioData` (src/extractor.js 255-265):
copy `rem` samples starting at map index `i`, advancing both offsets. -/
def copySamplesGo (fb : Buf) (szs : Option (List Nat)) (ds sampleStart : Nat) :
    Nat → Nat → Buf → Nat → Nat → Buf × Nat
  | 0, _, audioData, w, _ => (audioData, w)
  | rem + 1, i, audioData, w, r =>
    let sampleSize := match szs with
      | some l => l.getD (sampleStart + i) 0
      | none => ds
    let audioData2 := bufCopy audioData w fb r (r + sampleSize)
    copySamplesGo fb szs ds sampleStart rem (i + 1) audioData2 (w + sampleSize)
      (r + sampleSize)

/-- Outer chunk loop of `extractAudioData` (src/extractor.js 252-266). -/
def extractChunksGo (fb : Buf) (szs : Option (List Nat)) (ds : Nat)
    (chunkOffsets : List Nat) : List ChunkMapEntry → Buf → Nat → Buf
  | [], audioData, _ => audioData
  | c :: rest, audioData, w =>
    let r := chunkOffsets.getD c.chunkIndex 0
    let res := copySamplesGo fb szs ds c.sampleStart c.sampleCount 0 audioData w r
    extractChunksGo fb szs ds chunkOffsets rest res.1 res.2

/-- `extractAudioData` (src/extractor.js 235-269). -/
def extractAudioData (fb : Buf) (st : SampleTable) : Buf :=
  let chunkMap := buildChunkSampleMap st.stscEntries st.chunkOffsets.length
  let totalSize := match st.sampleSizes.sizes with
    | some szs => szs.foldl (fun s x => s + x) 0
    | none => st.sampleSizes.sampleCount * st.sampleSizes.defaultSize
  extractChunksGo fb st.sampleSizes.sizes st.sampleSizes.defaultSize st.chunkOffsets
    chunkMap (List.replicate totalSize 0) 0

/-- Whether every Node write inside `buildM4aFile` is in range for this
input, so that none of them throws `ERR_OUT_OF_RANGE` (a throw is
caught by the per-trak catch of `extractAllTracks` and skips the trak).
One conjunct per range-sensitive source write:
`sttsData.writeUInt32BE(sttsEntries.length, 4)` (line 311) and the
per-entry writes (313-314); `stscData.writeUInt32BE(sampleCount, 12)`
(323, also written at 334); the stsz branch (333-334, 341-343), where a
`null` `sizes` with `defaultSize = 0` makes `sizes.length` (338) throw
a TypeError instead; the mdhd timescale and duration writes (397-398),
whose duration can exceed 2 ^ 32 when `parseMdhd` read a version-1
64-bit duration, and the tkhd (415) and mvhd (427-428) copies of the
same two values; the mdat header size write `8 + audioData.length`
(inside `createAtom`, 280); and the final chunk-offset patch (446-447).
The chunk-offset bound also keeps every nested atom size write of
`createAtom` below 2 ^ 32, because each nested size is at most the
total moov length. -/
def buildM4aWritesOK (ti : TrackInfo) : Bool :=
  decide (ti.sttsEntries.length < 2 ^ 32) &&
  ti.sttsEntries.all (fun e =>
    decide (e.sampleCount < 2 ^ 32) && decide (e.sampleDelta < 2 ^ 32)) &&
  decide (ti.sampleSizes.sampleCount < 2 ^ 32) &&
  (if 0 < ti.sampleSizes.defaultSize then decide (ti.sampleSizes.defaultSize < 2 ^ 32)
   else match ti.sampleSizes.sizes with
    | none => false
    | some szs => decide (szs.length < 2 ^ 32) && szs.all (fun x => decide (x < 2 ^ 32))) &&
  decide (ti.mdhd.timescale < 2 ^ 32) &&
  decide (ti.mdhd.duration < 2 ^ 32) &&
  decide (8 + ti.audioData.length < 2 ^ 32) &&
  decide (buildFtyp.length + (buildMoov ti).length + 8 < 2 ^ 32)

/-- The loop body of `extractAllTracks` (src/extractor.js 564-586) for
one trak, `none` when the iteration pushes nothing: a failed sample
table decode is caught and skipped, a sample count below 100 is
skipped, an empty stsc table with a non-empty chunk list makes
`buildChunkSampleMap` throw (`stscEntries[0]` is undefined), and an
out-of-range write inside `buildM4aFile` throws; the catch skips both
of the latter as well. -/
def extractTrackStep (fileBuffer : Buf) (trak : MP4Atom) : Option Buf :=
  (parseSampleTableFromTrak fileBuffer trak).bind (fun sampleTable =>
    if sampleTable.sampleSizes.sampleCount < 100 then none
    else if sampleTable.stscEntries = [] ∧ sampleTable.chunkOffsets ≠ [] then none
    else if buildM4aWritesOK
        ⟨extractAudioData fileBuffer sampleTable, sampleTable.stsd,
         sampleTable.sampleSizes, sampleTable.sttsEntries, sampleTable.mdhd⟩ then
      some (buildM4aFile
        ⟨extractAudioData fileBuffer sampleTable, sampleTable.stsd,
         sampleTable.sampleSizes, sampleTable.sttsEntries, sampleTable.mdhd⟩)
    else none)

/-- The `for` loop of `extractAllTracks` (src/extractor.js 563-586). -/
def extractTracksGo (fileBuffer : Buf) : List MP4Atom → List Buf
  | [] => []
  | trak :: rest =>
    match extractTrackStep fileBuffer trak with
    | none => extractTracksGo fileBuffer rest
    | some b => b :: extractTracksGo fileBuffer rest

/-- `extractAllTracks` (src/extractor.js 553-589), file i/o replaced by
buffer in; `none` models the throw when no `moov` exists. -/
def extractAllTracks (fileBuffer : Buf) : Option (List Buf) :=
  let atoms := parseAtoms fileBuffer 0 none
  (findAtom atoms "moov").map (fun moov =>
    let moovChildren := parseAtoms fileBuffer moov.dataOffset (some (moov.size - 8))
    let traks := moovChildren.filter (fun a => a.type = fourcc "trak")
    extractTracksGo fileBuffer traks)

end Extractor

set_option maxHeartbeats 1600000 in
theorem Extractor.extractTracksGo_eq_filterMap (fb : Buf) :
    ∀ l : List MP4Atom,
      Extractor.extractTracksGo fb l = l.filterMap (Extractor.extractTrackStep fb) := by
  intro l
  induction l with
  | nil => rfl
  | cons trak rest ih =>
    have hunf : Extractor.extractTracksGo fb (trak :: rest)
        = match Extractor.extractTrackStep fb trak with
          | none => Extractor.extractTracksGo fb rest
          | some b => b :: Extractor.extractTracksGo fb rest := rfl
    rw [hunf, List.filterMap_cons]
    cases h : Extractor.extractTrackStep fb trak with
    | none =>
      dsimp only
      exact ih
    | some b =>
      dsimp only
      rw [ih]

set_option maxHeartbeats 1600000 in
/-- C7: once `moov` is found, `extractAllTracks` never fails: its output
is the per-trak `filterMap` of an independent step function over the
`trak` children of `moov`, so one trak's failure cannot affect another
trak's output or the whole run.  The step emits the built M4A exactly
for a trak whose sample table decodes, reports at least 100 samples,
and triggers no caught throw downstream (chunk-map construction and
the Node write-range checks of `buildM4aFile`, e.g. a version-1 mdhd
duration of 2 ^ 32 or more); a trak below 100 samples, with a failing
decode, or with an out-of-range write is logged and skipped,
contributing nothing. -/
theorem claim7_extract_all_tracks (fileBuffer : Buf) (moov : MP4Atom)
    (hm : Extractor.findAtom (Extractor.parseAtoms fileBuffer 0 none) "moov" = some moov) :
    ∃ outs, Extractor.extractAllTracks fileBuffer = some outs ∧
      outs = ((Extractor.parseAtoms fileBuffer moov.dataOffset (some (moov.size - 8))).filter
          (fun a => a.type = fourcc "trak")).filterMap
        (Extractor.extractTrackStep fileBuffer) ∧
      (∀ trak st, Extractor.parseSampleTableFromTrak fileBuffer trak = some st →
        100 ≤ st.sampleSizes.sampleCount →
        (st.stscEntries ≠ [] ∨ st.chunkOffsets = []) →
        Extractor.buildM4aWritesOK
            ⟨Extractor.extractAudioData fileBuffer st, st.stsd, st.sampleSizes,
             st.sttsEntries, st.mdhd⟩ = true →
        Extractor.extractTrackStep fileBuffer trak
          = some (Extractor.buildM4aFile
              ⟨Extractor.extractAudioData fileBuffer st, st.stsd, st.sampleSizes,
               st.sttsEntries, st.mdhd⟩)) ∧
      (∀ trak st, Extractor.parseSampleTableFromTrak fileBuffer trak = some st →
        st.sampleSizes.sampleCount < 100 →
        Extractor.extractTrackStep fileBuffer trak = none) ∧
      (∀ trak st, Extractor.parseSampleTableFromTrak fileBuffer trak = some st →
        Extractor.buildM4aWritesOK
            ⟨Extractor.extractAudioData fileBuffer st, st.stsd, st.sampleSizes,
             st.sttsEntries, st.mdhd⟩ = false →
        Extractor.extractTrackStep fileBuffer trak = none) ∧
      (∀ trak, Extractor.parseSampleTableFromTrak fileBuffer trak = none →
        Extractor.extractTrackStep fileBuffer trak = none) := by
  refine ⟨Extractor.extractTracksGo fileBuffer
      ((Extractor.parseAtoms fileBuffer moov.dataOffset (some (moov.size - 8))).filter
        (fun a => a.type = fourcc "trak")), ?_, ?_, ?_, ?_, ?_, ?_⟩
  · rw [Extractor.extractAllTracks, hm]
    rfl
  · exact Extractor.extractTracksGo_eq_filterMap fileBuffer _
  · intro trak st hst h100 hstsc hwok
    rw [Extractor.extractTrackStep, hst, Option.some_bind]
    have h1 : ¬ st.sampleSizes.sampleCount < 100 := by omega
    rw [if_neg h1, if_neg (by tauto), if_pos hwok]
  · intro trak st hst h100
    rw [Extractor.extractTrackStep, hst, Option.some_bind]
    rw [if_pos h100]
  · intro trak st hst hwof
    rw [Extractor.extractTrackStep, hst, Option.some_bind]
    by_cases h1 : st.sampleSizes.sampleCount < 100
    · rw [if_pos h1]
    · rw [if_neg h1]
      by_cases h2 : st.stscEntries = [] ∧ st.chunkOffsets ≠ []
      · rw [if_pos h2]
      · rw [if_neg h2, hwof]
        simp
  · intro trak hst
    rw [Extractor.extractTrackStep, hst, Option.none_bind]

/-- A file with a moov holding one (degenerate) trak. -/
def c7FileExample : Buf :=
  Extractor.createAtom "moov" (Extractor.createAtom "trak" [0])

theorem claim7_witness :
    ∃ outs, Extractor.extractAllTracks c7FileExample = some outs ∧
      outs = ((Extractor.parseAtoms c7FileExample 8 (some 9)).filter
          (fun a => a.type = fourcc "trak")).filterMap
        (Extractor.extractTrackStep c7FileExample) ∧
      (∀ trak st, Extractor.parseSampleTableFromTrak c7FileExample trak = some st →
        100 ≤ st.sampleSizes.sampleCount →
        (st.stscEntries ≠ [] ∨ st.chunkOffsets = []) →
        Extractor.buildM4aWritesOK
            ⟨Extractor.extractAudioData c7FileExample st, st.stsd, st.sampleSizes,
             st.sttsEntries, st.mdhd⟩ = true →
        Extractor.extractTrackStep c7FileExample trak
          = some (Extractor.buildM4aFile
              ⟨Extractor.extractAudioData c7FileExample st, st.stsd, st.sampleSizes,
               st.sttsEntries, st.mdhd⟩)) ∧
      (∀ trak st, Extractor.parseSampleTableFromTrak c7FileExample trak = some st →
        st.sampleSizes.sampleCount < 100 →
        Extractor.extractTrackStep c7FileExample trak = none) ∧
      (∀ trak st, Extractor.parseSampleTableFromTrak c7FileExample trak = some st →
        Extractor.buildM4aWritesOK
            ⟨Extractor.extractAudioData c7FileExample st, st.stsd, st.sampleSizes,
             st.sttsEntries, st.mdhd⟩ = false →
        Extractor.extractTrackStep c7FileExample trak = none) ∧
      (∀ trak, Extractor.parseSampleTableFromTrak c7FileExample trak = none →
        Extractor.extractTrackStep c7FileExample trak = none) :=
  claim7_extract_all_tracks c7FileExample ⟨fourcc "moov", 0, 17, 8⟩ (by decide)
